import Mathlib

set_option maxHeartbeats 1000000

/-!
Shallow embedding of the fraud-detection pipeline
(src/csv_reader.rs, src/kmeans.rs, src/main.rs).

Modelling conventions:
* Rust `f64` values flowing through the numeric pipeline are modelled as real
  numbers (`ℝ`).  Under this semantics every value is finite, so the
  `is_finite` guards of `Transaction::to_feature_vector` are identically true
  and are dropped from the real-valued embedding.  A second embedding
  (`FE`, `TransactionE.to_feature_vectorE`) keeps the IEEE special values
  `+∞`, `-∞`, `NaN` and every `is_finite` branch literally; it is used for the
  claims about sanitization of non-finite inputs.
* Rust `i32` fields are modelled as `ℤ`, `usize` counts as `ℕ`.
* `HashSet`/`HashMap` contents are modelled by lists with deduplication;
  where the (process-random) iteration order of a `HashMap` is observable
  (the `max_by_key` mode selection, the repeat-offender listing) the order is
  an explicit parameter, quantified over the permutations of the canonical
  entry list.
-/

/-- Transaction record, mirroring `struct Transaction` in src/csv_reader.rs. -/
structure Transaction where
  transaction_id : String
  user_id : ℤ
  transaction_amount : Option ℝ
  transaction_type : String
  time_of_transaction : Option ℝ
  device_used : Option String
  location : Option String
  previous_fraudulent_transactions : Option ℤ
  account_age : Option ℤ
  number_of_transactions_last_24h : Option ℤ
  payment_method : Option String
  fraudulent : Option ℤ

/-- A default record (all optional fields absent); used only as the `getD`
fallback when indexing lists of transactions. -/
def defaultTransaction : Transaction :=
  { transaction_id := ""
    user_id := 0
    transaction_amount := none
    transaction_type := ""
    time_of_transaction := none
    device_used := none
    location := none
    previous_fraudulent_transactions := none
    account_age := none
    number_of_transactions_last_24h := none
    payment_method := none
    fraudulent := none }

instance : Inhabited Transaction := ⟨defaultTransaction⟩

/-- Position of a transaction type in the fixed enumeration of the vectorizer
(src/csv_reader.rs lines 53-59); the Rust match returns these indices as the
constants `0.0` … `4.0`. -/
def typeIndex : String → ℕ
  | "ATM Withdrawal" => 0
  | "Bill Payment" => 1
  | "Online Purchase" => 2
  | "Transfer" => 3
  | _ => 4

/-- Transaction-type encoding pushed by `to_feature_vector` (the enumeration
index as an `f64`). -/
noncomputable def typeEncode (s : String) : ℝ := (typeIndex s : ℝ)

/-- Position of a payment method in the fixed enumeration of the vectorizer
(src/csv_reader.rs lines 63-69). -/
def payIndex : Option String → ℕ
  | some "Credit Card" => 0
  | some "Debit Card" => 1
  | some "PayPal" => 2
  | some "Bank Transfer" => 3
  | _ => 4

/-- Payment-method encoding pushed by `to_feature_vector`. -/
noncomputable def payEncode (s : Option String) : ℝ := (payIndex s : ℝ)

/-- Truncation toward zero on `ℝ`, the rounding used by Rust's `%` on `f64`. -/
noncomputable def truncR (x : ℝ) : ℝ := if 0 ≤ x then (⌊x⌋ : ℝ) else (⌈x⌉ : ℝ)

/-- Rust `f64` remainder `x % y` for finite operands, `y ≠ 0`:
`x - y * trunc (x / y)`. -/
noncomputable def fmod (x y : ℝ) : ℝ := x - y * truncR (x / y)

/-- `Transaction::to_feature_vector` (src/csv_reader.rs lines 34-73) under the
finite-real semantics: the two `is_finite` guards are identically true for
real inputs and the corresponding branches are collapsed; everything else is
literal.  The vector has the 9 components printed by main.rs lines 249-257:
amount, log-amount, time, hour-of-day fraction, prior-fraud count, account
age, 24h transaction count, transaction-type code, payment-method code. -/
noncomputable def Transaction.to_feature_vector (t : Transaction) : List ℝ :=
  let amount := t.transaction_amount.getD 0
  let time := t.time_of_transaction.getD 0
  [amount,
   if 0 < amount then Real.logb 10 amount else 0,
   time,
   fmod time 24 / 24,
   (t.previous_fraudulent_transactions.getD 0 : ℝ),
   (t.account_age.getD 0 : ℝ),
   (t.number_of_transactions_last_24h.getD 0 : ℝ),
   typeEncode t.transaction_type,
   payEncode t.payment_method]

/-! ### Extended floating-point model (for the non-finite sanitization claim)

`FE` is an `f64` with the IEEE special values: a finite real, `+∞`, `-∞` or
`NaN`.  Signed zeros and rounding are not modelled; only the operations that
`to_feature_vector` applies are defined. -/

/-- An `f64` value: finite real, `+∞`, `-∞`, or `NaN`. -/
inductive FE where
  | fin : ℝ → FE
  | pinf : FE
  | ninf : FE
  | nan : FE

/-- `f64::is_finite`. -/
def FE.isFinite : FE → Bool
  | .fin _ => true
  | _ => false

/-- IEEE `<` on `f64` (any comparison with NaN is false). -/
noncomputable def FE.lt : FE → FE → Bool
  | .nan, _ => false
  | _, .nan => false
  | .fin x, .fin y => decide (x < y)
  | .fin _, .pinf => true
  | .fin _, .ninf => false
  | .pinf, _ => false
  | .ninf, .ninf => false
  | .ninf, _ => true

/-- IEEE `f64::log10`: `log10 (+∞) = +∞`, `log10 0 = -∞`, negative and NaN
arguments give NaN. -/
noncomputable def FE.log10 : FE → FE
  | .fin x => if 0 < x then .fin (Real.logb 10 x) else if x = 0 then .ninf else .nan
  | .pinf => .pinf
  | _ => .nan

/-- IEEE `f64` remainder `%`: NaN for a non-finite dividend or zero divisor,
the dividend for an infinite divisor, truncated remainder otherwise. -/
noncomputable def FE.rem : FE → FE → FE
  | .fin x, .fin y => if y = 0 then .nan else .fin (fmod x y)
  | .fin x, .pinf => .fin x
  | .fin x, .ninf => .fin x
  | _, _ => .nan

/-- IEEE `f64` division restricted to the shapes reachable from
`to_feature_vector` (finite divisor 24); other mixed shapes follow IEEE up to
the sign of zero, which is not modelled. -/
noncomputable def FE.div : FE → FE → FE
  | .fin x, .fin y =>
      if y = 0 then (if x = 0 then .nan else if 0 < x then .pinf else .ninf)
      else .fin (x / y)
  | .fin _, .pinf => .fin 0
  | .fin _, .ninf => .fin 0
  | .pinf, .fin y => if 0 ≤ y then .pinf else .ninf
  | .ninf, .fin y => if 0 ≤ y then .ninf else .pinf
  | _, _ => .nan

/-- Transaction record with `f64` fields carrying IEEE special values. -/
structure TransactionE where
  transaction_id : String
  user_id : ℤ
  transaction_amount : Option FE
  transaction_type : String
  time_of_transaction : Option FE
  device_used : Option String
  location : Option String
  previous_fraudulent_transactions : Option ℤ
  account_age : Option ℤ
  number_of_transactions_last_24h : Option ℤ
  payment_method : Option String
  fraudulent : Option ℤ

/-- `Transaction::to_feature_vector` (src/csv_reader.rs lines 34-73) under the
extended-value semantics, keeping every `is_finite` guard literally.  Note
line 40 of the source: the log-amount feature is guarded only by
`amount > 0.0`, not by `amount.is_finite()`. -/
noncomputable def TransactionE.to_feature_vectorE (t : TransactionE) : List FE :=
  let amount := t.transaction_amount.getD (.fin 0)
  let time := t.time_of_transaction.getD (.fin 0)
  [if amount.isFinite then amount else .fin 0,
   if FE.lt (.fin 0) amount then amount.log10 else .fin 0,
   if time.isFinite then time else .fin 0,
   if time.isFinite then (time.rem (.fin 24)).div (.fin 24) else .fin 0,
   .fin (t.previous_fraudulent_transactions.getD 0 : ℝ),
   .fin (t.account_age.getD 0 : ℝ),
   .fin (t.number_of_transactions_last_24h.getD 0 : ℝ),
   .fin (typeIndex t.transaction_type : ℝ),
   .fin (payIndex t.payment_method : ℝ)]

/-- A record whose amount parsed to `+∞`; all other fields benign. -/
noncomputable def txInf : TransactionE :=
  { transaction_id := "T_INF"
    user_id := 7
    transaction_amount := some .pinf
    transaction_type := "Transfer"
    time_of_transaction := some (.fin 1)
    device_used := none
    location := none
    previous_fraudulent_transactions := some 0
    account_age := some 10
    number_of_transactions_last_24h := some 1
    payment_method := some "PayPal"
    fraudulent := some 0 }

/-! ### Feature normalization (main.rs lines 17-32) and the spec's normalizer -/

/-- `normalize_features` (main.rs lines 17-32): standardizes the entries of a
single vector by their own mean and population standard deviation, in place;
leaves the vector unchanged when the standard deviation is zero.  This
function is never invoked anywhere in the program. -/
noncomputable def normalize_features (features : List ℝ) : List ℝ :=
  let n : ℝ := features.length
  let mean := features.sum / n
  let variance := (features.map (fun x => (x - mean) ^ 2)).sum / n
  let std_dev := Real.sqrt variance
  if 0 < std_dev then features.map (fun x => (x - mean) / std_dev) else features

/-- Mean of column `j` of a feature matrix. -/
noncomputable def colMean (rows : List (List ℝ)) (j : ℕ) : ℝ :=
  (rows.map (fun r => r.getD j 0)).sum / rows.length

/-- Population standard deviation of column `j` of a feature matrix. -/
noncomputable def colStd (rows : List (List ℝ)) (j : ℕ) : ℝ :=
  Real.sqrt ((rows.map (fun r => (r.getD j 0 - colMean rows j) ^ 2)).sum / rows.length)

/-- Modelled from the spec: the FeatureNormalizer contract of spec section 4.2
(no function in src/ implements it): replace each value with
`(x - mean) / std` using the per-column mean and population standard
deviation, leaving columns with `std == 0` unchanged. -/
noncomputable def specColumnStandardize (rows : List (List ℝ)) : List (List ℝ) :=
  rows.map fun r => (List.range r.length).map fun j =>
    if colStd rows j = 0 then r.getD j 0
    else (r.getD j 0 - colMean rows j) / colStd rows j

/-! ### Similarity graph (main.rs lines 35-79) -/

/-- `cosine_similarity` (main.rs lines 35-45). -/
noncomputable def cosine_similarity (a b : List ℝ) : ℝ :=
  let dot_product := (List.zipWith (fun x y => x * y) a b).sum
  let norm_a := Real.sqrt ((a.map (fun x => x ^ 2)).sum)
  let norm_b := Real.sqrt ((b.map (fun x => x ^ 2)).sum)
  if norm_a = 0 ∨ norm_b = 0 then 0 else dot_product / (norm_a * norm_b)

/-- Feature vector of the record at index `i` (the `features` vec of
main.rs lines 59-61 / kmeans.rs lines 41-43, indexed). -/
noncomputable def featAt (txs : List Transaction) (i : ℕ) : List ℝ :=
  (txs.getD i defaultTransaction).to_feature_vector

/-- Transaction id of the record at index `i`. -/
def tidAt (txs : List Transaction) (i : ℕ) : String :=
  (txs.getD i defaultTransaction).transaction_id

/-- The node index stored in the `node_indices` HashMap for a given
transaction id: nodes are added in input order (main.rs lines 53-56) and each
`insert` overwrites, so the map holds the LAST index bearing that id. -/
def lastOcc (txs : List Transaction) (tid : String) : ℕ :=
  ((List.range txs.length).filter (fun i => tidAt txs i = tid)).getLastD 0

/-- The ordered pairs `(i, j)` with `i < j < n` visited by the double loop of
main.rs lines 67-76, in loop order. -/
def pairsList (n : ℕ) : List (ℕ × ℕ) :=
  (List.range n).flatMap fun i => (List.range' (i + 1) (n - (i + 1))).map fun j => (i, j)

/-- The undirected similarity graph: `n` nodes (one per record, indices in
insertion order) and a list of weighted edges (petgraph stores each
`add_edge` as one undirected edge; repeated `add_edge` calls create parallel
edges). -/
structure FGraph where
  n : ℕ
  edges : List (ℕ × ℕ × ℝ)

/-- `build_transaction_graph` (main.rs lines 48-79): one node per record; for
every `i < j` with cosine similarity above the 0.7 threshold an edge between
the nodes found by looking the two transaction ids up in `node_indices`,
weighted by the similarity. -/
noncomputable def build_transaction_graph (txs : List Transaction) : FGraph :=
  { n := txs.length
    edges := (pairsList txs.length).filterMap fun p =>
      let similarity := cosine_similarity (featAt txs p.1) (featAt txs p.2)
      if 0.7 < similarity
      then some (lastOcc txs (tidAt txs p.1), lastOcc txs (tidAt txs p.2), similarity)
      else none }

/-- `graph.neighbors(v)`: the opposite endpoint of every incident edge, one
entry per edge (parallel edges repeat the neighbor, matching petgraph). -/
def neighbors (g : FGraph) (v : ℕ) : List ℕ :=
  g.edges.filterMap fun e =>
    if e.1 = v then some e.2.1 else if e.2.1 = v then some e.1 else none

/-! ### Connected components by iterative DFS (main.rs lines 163-178) -/

/-- One pass of the inner `for neighbor in graph.neighbors(current)` loop of
main.rs lines 172-177: push every not-yet-visited neighbor, marking it
visited at push time.  Returns the new stack and visited set. -/
def dfsPush (visited stack : List ℕ) : List ℕ → List ℕ × List ℕ
  | [] => (stack, visited)
  | nb :: nbs =>
      if nb ∈ visited then dfsPush visited stack nbs
      else dfsPush (nb :: visited) (nb :: stack) nbs

/-- The `while let Some(current) = stack.pop()` loop of main.rs lines
170-178.  `fuel` only bounds the number of iterations; each iteration pops
one stack entry and every push marks a fresh node visited, so the quantity
`|unvisited| + |stack|` drops by one per iteration and the fuel supplied by
`componentsAux` (`g.n + 1`) is never exhausted (see `dfsLoop_spec`). -/
def dfsLoop (g : FGraph) : ℕ → List ℕ → List ℕ → List ℕ → List ℕ × List ℕ
  | _, [], visited, component => (component, visited)
  | 0, _ :: _, visited, component => (component, visited)
  | fuel + 1, current :: stack, visited, component =>
      let p := dfsPush visited stack (neighbors g current)
      dfsLoop g fuel p.1 p.2 (component ++ [current])

/-- The outer `for node in graph.node_indices()` loop of main.rs lines
164-178: start a DFS at every not-yet-visited node, collecting one component
per root. -/
def componentsAux (g : FGraph) : List ℕ → List ℕ → List (List ℕ)
  | [], _ => []
  | v :: vs, visited =>
      if v ∈ visited then componentsAux g vs visited
      else
        let p := dfsLoop g (g.n + 1) [v] (v :: visited) []
        p.1 :: componentsAux g vs p.2

/-- All components discovered by the traversal of main.rs lines 164-178. -/
def componentsOf (g : FGraph) : List (List ℕ) := componentsAux g (List.range g.n) []

/-- `calculate_component_density` (main.rs lines 84-109): the number of
distinct normalized edge pairs inside the component over `n*(n-1)/2`. -/
noncomputable def calculate_component_density (g : FGraph) (component_nodes : List ℕ) : ℝ :=
  let n := component_nodes.length
  if n ≤ 1 then 0
  else
    let max_possible_edges := n * (n - 1) / 2
    if max_possible_edges = 0 then 0
    else
      let edge_pairs : Finset (ℕ × ℕ) :=
        (component_nodes.flatMap fun node =>
          (neighbors g node).filterMap fun nb =>
            if nb ∈ component_nodes then some (min node nb, max node nb) else none).toFinset
      (edge_pairs.card : ℝ) / (max_possible_edges : ℝ)

/-- `calculate_average_degree_centrality` (main.rs lines 112-127): the mean
full-graph degree of the component members, divided by `n - 1`. -/
noncomputable def calculate_average_degree_centrality (g : FGraph) (component_nodes : List ℕ) : ℝ :=
  let n := component_nodes.length
  if n ≤ 1 then 0
  else
    let total_degree : ℕ := (component_nodes.map fun node => (neighbors g node).length).sum
    let avg_degree := (total_degree : ℝ) / (n : ℝ)
    avg_degree / ((n - 1 : ℕ) : ℝ)

/-! ### HashMap-order-sensitive selections -/

/-- One comparison step of Rust's `Iterator::max_by_key`: the running maximum
is replaced whenever the next count is at least as large (so the LAST maximal
element wins). -/
def maxStep {α : Type} (acc : Option (α × ℕ)) (p : α × ℕ) : Option (α × ℕ) :=
  match acc with
  | none => some p
  | some q => if q.2 ≤ p.2 then some p else some q

/-- Rust's `Iterator::max_by_key` over `(key, count)` pairs: the maximum by
count, the LAST maximal element winning. -/
def maxByKeyLast {α : Type} (l : List (α × ℕ)) : Option (α × ℕ) :=
  l.foldl maxStep none

/-- The category selected by the `max_by_key` chain of kmeans.rs lines
105-108 / 110-113, given the HashMap entries in iteration order `entries`;
`d` is the `unwrap_or_default()` fallback. -/
def selectedMode {α : Type} (d : α) (entries : List (α × ℕ)) : α :=
  ((maxByKeyLast entries).map Prod.fst).getD d

/-- Occurrence count of one key value in a key list. -/
def countOf {α : Type} [DecidableEq α] (key : List α) (a : α) : ℕ :=
  key.count a

/-- Content of the counting HashMap of kmeans.rs lines 98-103 (or main.rs
lines 141-146): one entry per distinct key with its occurrence count, written
in first-occurrence order.  The actual iteration order is an unspecified
permutation of this list. -/
def canonicalEntries {α : Type} [DecidableEq α] (key : List α) : List (α × ℕ) :=
  key.dedup.map fun a => (a, countOf key a)

/-- The maximal occurrence count over a key list. -/
def maxCount {α : Type} [DecidableEq α] (key : List α) : ℕ :=
  (canonicalEntries key).foldl (fun m p => max m p.2) 0

/-- Modelled from the spec: the mode selection of spec section 4.4 — the
category of maximal count, ties broken by the lowest position in the fixed
enumeration of section 4.1.  (The code's tie-break is HashMap iteration
order; this definition follows the spec's words for comparison.) -/
def specModeTxType (cl : List Transaction) : String :=
  let key := cl.map (fun t => t.transaction_type)
  match key.dedup.filter (fun a => key.count a = maxCount key) with
  | [] => ""
  | c :: cs => cs.foldl (fun b x => if typeIndex x < typeIndex b then x else b) c

/-- Per-user fraudulent-transaction counts (main.rs lines 141-146), canonical
first-occurrence order: one entry per user with at least one fraudulent
transaction. -/
def canonicalUserFraudEntries (txs : List Transaction) : List (ℤ × ℕ) :=
  canonicalEntries ((txs.filter (fun t => t.fraudulent = some 1)).map (fun t => t.user_id))

/-- The repeat-offender filter of main.rs lines 149-152, applied to the
fraud-count entries in HashMap iteration order. -/
def repeat_offenders (entries : List (ℤ × ℕ)) : List (ℤ × ℕ) :=
  entries.filter fun p => 1 < p.2

/-! ### K-means clustering stage (src/kmeans.rs) -/

/-- Error type of the clustering engine; spec section 4.3 names the
invalid-`k` failure `InvalidConfiguration`. -/
inductive KMeansError where
  | invalidConfiguration : KMeansError
  deriving DecidableEq

/-- `struct ClusterAnalysis` (kmeans.rs lines 11-24).  The source declares
`most_common_payment: String`, but the expression assigned to it
(kmeans.rs lines 110-113) has type `Option<String>` (the HashMap is keyed by
`Option<String>` and `unwrap_or_default` unwraps only the outer `Option`);
the field is modelled with the type of that expression. -/
structure ClusterAnalysis where
  size : ℕ
  fraud_count : ℕ
  unique_users : ℕ
  avg_features : List ℝ
  most_common_tx_type : String
  most_common_payment : Option String

/-- Number of columns of the clustering dataset: `features[0].len()`
(kmeans.rs line 46). -/
noncomputable def nFeaturesOf (txs : List Transaction) : ℕ :=
  ((txs.map Transaction.to_feature_vector).getD 0 []).length

/-- Entry `(i, j)` of the `Array2` dataset built in kmeans.rs lines 46-52:
zero-initialized, then overwritten with `features[i][j]` for every in-range
pair. -/
noncomputable def dataEntry (txs : List Transaction) (i j : ℕ) : ℝ :=
  ((txs.map Transaction.to_feature_vector).getD i []).getD j 0

/-- The rows of the `Array2` dataset (the matrix actually handed to the
KMeans fit), read back row by row. -/
noncomputable def dataMatrixRows (txs : List Transaction) : List (List ℝ) :=
  (List.range txs.length).map fun i => (List.range (nFeaturesOf txs)).map fun j => dataEntry txs i j

/-- The `features` vector consumed by the graph builder
(main.rs lines 59-61). -/
noncomputable def graph_feature_vectors (txs : List Transaction) : List (List ℝ) :=
  txs.map Transaction.to_feature_vector

/-- The cluster-assignment list `model.predict(&dataset)` as used in
kmeans.rs line 67, for an abstract prediction function `pred`. -/
def predictions (pred : ℕ → ℕ) (txs : List Transaction) : List ℕ :=
  (List.range txs.length).map pred

/-- `cluster_transactions` for one cluster index (kmeans.rs lines 65-70):
the records whose prediction equals `cluster_idx`, in input order. -/
def clusterMembers (pred : ℕ → ℕ) (txs : List Transaction) (cluster_idx : ℕ) : List Transaction :=
  ((txs.zip (predictions pred txs)).filter (fun p => p.2 = cluster_idx)).map Prod.fst

/-- Elementwise sum of feature vectors into a zero vector of width
`n_features` (kmeans.rs lines 87-93). -/
noncomputable def sumFeatures (n_features : ℕ) (vs : List (List ℝ)) : List ℝ :=
  vs.foldl (fun acc v => List.zipWith (fun a b => a + b) acc v) (List.replicate n_features 0)

/-- The analysis of one cluster (kmeans.rs lines 64-123): `none` when the
cluster is empty (the `continue`), otherwise the statistics record.  The two
`most_common` selections are written here with the canonical
first-occurrence entry order standing in for the unspecified HashMap
iteration order; the order-sensitivity of that selection is treated
explicitly by the theorems about `selectedMode`. -/
noncomputable def clusterOf (pred : ℕ → ℕ) (txs : List Transaction) (cluster_idx : ℕ) :
    Option ClusterAnalysis :=
  let ms := clusterMembers pred txs cluster_idx
  if ms.isEmpty then none
  else some
    { size := ms.length
      fraud_count := (ms.filter (fun t => t.fraudulent = some 1)).length
      unique_users := ((ms.map (fun t => t.user_id)).dedup).length
      avg_features :=
        (sumFeatures (nFeaturesOf txs) (ms.map Transaction.to_feature_vector)).map
          (fun v => v / (ms.length : ℝ))
      most_common_tx_type :=
        selectedMode "" (canonicalEntries (ms.map (fun t => t.transaction_type)))
      most_common_payment :=
        selectedMode none (canonicalEntries (ms.map (fun t => t.payment_method))) }

/-- The `cluster_analyses` vector (kmeans.rs lines 62-123): one entry per
non-empty cluster index in `0..n_clusters`. -/
noncomputable def clusterAnalyses (pred : ℕ → ℕ) (txs : List Transaction) (n_clusters : ℕ) :
    List ClusterAnalysis :=
  (List.range n_clusters).filterMap (clusterOf pred txs)

/-- `analyze_clusters` (kmeans.rs lines 34-126).  The early return for an
empty input (lines 36-38) is literal.  The KMeans fit itself is the external
linfa library; modelled from the spec (section 4.3): the fit fails with
`InvalidConfiguration` unless `1 ≤ k ≤ N`, and otherwise yields a total
assignment of the records to cluster ids in `[0, k)`, supplied here as the
parameter `pred`. -/
noncomputable def analyze_clusters (pred : ℕ → ℕ) (txs : List Transaction) (n_clusters : ℕ) :
    Except KMeansError (List ClusterAnalysis) :=
  if txs.isEmpty then .ok []
  else if n_clusters = 0 ∨ txs.length < n_clusters then .error .invalidConfiguration
  else .ok (clusterAnalyses pred txs n_clusters)

/-! ### Concrete records used by the example theorems -/

/-- Record 1 of the spec's example scenario (spec section 8): user 1, amount
100, time 1, no prior fraud, account age 365, two transactions in 24h. -/
noncomputable def record1 : Transaction :=
  { transaction_id := "T1"
    user_id := 1
    transaction_amount := some 100
    transaction_type := "Online Purchase"
    time_of_transaction := some 1
    device_used := none
    location := none
    previous_fraudulent_transactions := some 0
    account_age := some 365
    number_of_transactions_last_24h := some 2
    payment_method := some "Credit Card"
    fraudulent := some 0 }

/-- A minimal record with a given id, transaction type, prior-fraud count and
account age; every other optional field absent, amount and time absent
(hence both 0 in the feature vector). -/
def plainTx (tid : String) (ty : String) (pf age : ℤ) : Transaction :=
  { transaction_id := tid
    user_id := 1
    transaction_amount := none
    transaction_type := ty
    time_of_transaction := none
    device_used := none
    location := none
    previous_fraudulent_transactions := some pf
    account_age := some age
    number_of_transactions_last_24h := some 0
    payment_method := some "Credit Card"
    fraudulent := some 0 }

/-- A record with a concrete amount and everything else minimal. -/
noncomputable def amountTx (tid : String) (amt : ℝ) : Transaction :=
  { transaction_id := tid
    user_id := 1
    transaction_amount := some amt
    transaction_type := "ATM Withdrawal"
    time_of_transaction := none
    device_used := none
    location := none
    previous_fraudulent_transactions := some 0
    account_age := some 0
    number_of_transactions_last_24h := some 0
    payment_method := some "Credit Card"
    fraudulent := some 0 }

/-- Three records, the first two sharing the transaction id "A"; their
feature vectors lie in the prior-fraud/account-age plane at (3,4), (5,0) and
(4,3), giving pairwise cosine similarities 0.6, 0.96 and 0.8. -/
def txsDup : List Transaction :=
  [plainTx "A" "ATM Withdrawal" 3 4, plainTx "A" "ATM Withdrawal" 5 0,
   plainTx "B" "ATM Withdrawal" 4 3]

/-- A benign single record used by the witness theorems. -/
def wTx : Transaction := plainTx "W1" "Transfer" 0 0

/-! ### Helper lemmas and claim theorems -/

theorem logb_ten_hundred : Real.logb 10 100 = 2 := by
  rw [show (100:ℝ) = 10 ^ (2:ℕ) by norm_num, Real.logb_pow, Real.logb_self_eq_one] <;> norm_num

theorem fmod_one_24 : fmod 1 24 = 1 := by
  unfold fmod truncR
  rw [if_pos (by norm_num : (0:ℝ) ≤ 1/24)]
  rw [show ⌊(1/24 : ℝ)⌋ = 0 from by rw [Int.floor_eq_zero_iff]; constructor <;> norm_num]
  norm_num

theorem typeIndex_online : typeIndex "Online Purchase" = 2 := rfl

theorem payIndex_cc : payIndex (some "Credit Card") = 0 := rfl

/-- C1 (amended): on the example record of user 1 (amount 100, time 1,
prior-fraud 0, account age 365, 24h count 2) `to_feature_vector` returns the
9-dimensional vector `[100, 2, 1, 1/24, 0, 365, 2, 2, 0]` — amount,
log10-amount, time, hour-of-day fraction, prior-fraud count, account age, 24h
count, type code ("Online Purchase" = 2), payment code ("Credit Card" = 0). -/
theorem C1_record1_feature_vector : Transaction.to_feature_vector record1 =
    [100, 2, 1, 1/24, 0, 365, 2, 2, 0] := by
  simp only [Transaction.to_feature_vector, record1, typeEncode, payEncode,
    typeIndex_online, payIndex_cc, Option.getD_some]
  rw [fmod_one_24]
  norm_num [logb_ten_hundred]

/-- C1 counterexample: the vector returned for the example record is not the
claimed 5-element vector `[100, 1, 0, 365, 2]` (its length is 9, not 5). -/
theorem C1_counterexample : Transaction.to_feature_vector record1 ≠ ([100, 1, 0, 365, 2] : List ℝ) := by
  intro h
  have hlen := congrArg List.length h
  simp [Transaction.to_feature_vector] at hlen

/-- C4: the claim states that every component of the vector returned by
`to_feature_vector` is finite even for non-finite inputs.  The code violates
it: for a record whose amount parsed to `+∞`, the guard `amount > 0.0` on the
log-amount feature (csv_reader.rs line 40) is true and `log10 (+∞) = +∞` is
pushed unsanitized, so feature 1 of the returned vector is `+∞`. -/
theorem C4_nonfinite_log_amount :
    (TransactionE.to_feature_vectorE txInf).get? 1 = some FE.pinf ∧
    FE.isFinite FE.pinf = false ∧
    ¬ (∀ x ∈ TransactionE.to_feature_vectorE txInf, x.isFinite = true) := by
  refine ⟨rfl, rfl, ?_⟩
  intro h
  have hmem : FE.pinf ∈ TransactionE.to_feature_vectorE txInf := by
    have hget : (TransactionE.to_feature_vectorE txInf).get? 1 = some FE.pinf := rfl
    exact List.get?_mem hget
  have := h _ hmem
  simp [FE.isFinite] at this

/-- C3 counterexample: for the empty input collection (`N = 0`) and
`k = 0` — which satisfies the claim's `k == 0` condition — `analyze_clusters`
returns `Ok([])` (the early return of kmeans.rs lines 36-38) rather than an
`InvalidConfiguration` error. -/
theorem C3_counterexample : analyze_clusters (fun _ => 0) [] 0 = .ok [] ∧
    analyze_clusters (fun _ => 0) [] 0 ≠ .error .invalidConfiguration := by
  constructor
  · rfl
  · intro h; exact absurd h (by simp [analyze_clusters])

/-- C3 (amended): for every NON-EMPTY input collection, `analyze_clusters`
with `k == 0` or `k > N` fails with `InvalidConfiguration` (the k-means fit
precondition of spec section 4.3); the empty collection short-circuits to
`Ok([])` before `k` is inspected. -/
theorem C3_invalid_configuration_nonempty (pred : ℕ → ℕ) (txs : List Transaction) (k : ℕ) (hne : txs ≠ [])
    (hk : k = 0 ∨ txs.length < k) :
    analyze_clusters pred txs k = .error .invalidConfiguration := by
  unfold analyze_clusters
  rw [if_neg (by simp [List.isEmpty_iff, hne]), if_pos hk]

theorem feature_vector_length (t : Transaction) : t.to_feature_vector.length = 9 := by
  simp [Transaction.to_feature_vector]

theorem range_map_getD {α : Type} (l : List α) (d : α) :
    (List.range l.length).map (fun j => l.getD j d) = l := by
  apply List.ext_getElem
  · simp
  · intro i h1 h2
    simp [List.getD_eq_getElem?_getD, List.getElem?_eq_getElem h2]

theorem dataMatrixRows_eq_raw (txs : List Transaction) :
    dataMatrixRows txs = txs.map Transaction.to_feature_vector := by
  unfold dataMatrixRows
  apply List.ext_getElem
  · simp
  · intro i h1 h2
    simp only [List.getElem_map, List.getElem_range]
    have hi : i < txs.length := by simpa using h1
    have hrow : (txs.map Transaction.to_feature_vector).getD i [] =
        Transaction.to_feature_vector txs[i] := by
      simp [List.getD_eq_getElem?_getD, List.getElem?_eq_getElem, hi]
    have hn : nFeaturesOf txs = 9 := by
      unfold nFeaturesOf
      cases txs with
      | nil => simp at hi
      | cons a l => simp [feature_vector_length]
    unfold dataEntry
    rw [hn, hrow]
    have h9 : (9 : ℕ) = (Transaction.to_feature_vector txs[i]).length :=
      (feature_vector_length _).symm
    rw [h9, range_map_getD]

theorem truncR_zero : truncR 0 = 0 := by
  unfold truncR
  norm_num

theorem fmod_zero_24 : fmod 0 24 = 0 := by
  unfold fmod
  norm_num [truncR_zero]

theorem amountTx_fv (tid : String) (amt : ℝ) :
    (amountTx tid amt).to_feature_vector =
    [amt, if 0 < amt then Real.logb 10 amt else 0, 0, 0, 0, 0, 0, 0, 0] := by
  simp [Transaction.to_feature_vector, amountTx, typeEncode, payEncode, typeIndex, payIndex,
    fmod_zero_24]

/-- C2 (amended): both analysis stages consume the raw (unnormalized)
vectorizer output: the rows of the Array2 dataset built inside
`analyze_clusters` equal the raw feature vectors, exactly as the
similarity-graph stage's feature list does.  `normalize_features` is defined
but never invoked, and the column-wise standardization the claim describes is
never applied. -/
theorem C2_raw_features_consumed (txs : List Transaction) :
    dataMatrixRows txs = txs.map Transaction.to_feature_vector ∧
    graph_feature_vectors txs = txs.map Transaction.to_feature_vector :=
  ⟨dataMatrixRows_eq_raw txs, rfl⟩

/-- C2 counterexample: on two records with amounts 0 and 2, the matrix handed
to the k-means fit (the raw vectorizer output) differs from the column-wise
standardized features the claim describes: entry (0,0) is 0 in the dataset
but `(0 - 1) / 1 = -1` after the spec's standardization. -/
theorem C2_counterexample :
    dataMatrixRows [amountTx "Z" 0, amountTx "W" 2] ≠
    specColumnStandardize ([amountTx "Z" 0, amountTx "W" 2].map Transaction.to_feature_vector) := by
  intro h
  rw [dataMatrixRows_eq_raw [amountTx "Z" 0, amountTx "W" 2]] at h
  have h00 := congrArg (fun m => (m.getD 0 []).getD 0 0) h
  have hv0 : (amountTx "Z" 0).to_feature_vector = [0, 0, 0, 0, 0, 0, 0, 0, 0] := by
    rw [amountTx_fv]; norm_num
  have hv2 : (amountTx "W" 2).to_feature_vector =
      [2, Real.logb 10 2, 0, 0, 0, 0, 0, 0, 0] := by
    rw [amountTx_fv]; norm_num
  simp only [List.map_cons, List.map_nil, hv0, hv2] at h00
  have hmean : colMean [[0, 0, 0, 0, 0, 0, 0, 0, 0],
      [2, Real.logb 10 2, 0, 0, 0, 0, 0, 0, 0]] 0 = 1 := by
    unfold colMean
    norm_num
  have hstd : colStd [[0, 0, 0, 0, 0, 0, 0, 0, 0],
      [2, Real.logb 10 2, 0, 0, 0, 0, 0, 0, 0]] 0 = 1 := by
    unfold colStd
    rw [hmean]
    norm_num
  have hr : List.range 9 = [0, 1, 2, 3, 4, 5, 6, 7, 8] := rfl
  simp only [specColumnStandardize, List.map_cons, List.map_nil, List.getD_cons_zero,
    List.length_cons, List.length_nil, hr, hstd, hmean] at h00
  norm_num at h00

theorem maxStep_some {α : Type} (a q : α × ℕ) :
    maxStep (some a) q = some (if a.2 ≤ q.2 then q else a) := by
  by_cases h : a.2 ≤ q.2 <;> simp [maxStep, h]

theorem foldl_maxStep_some {α : Type} :
    ∀ (l : List (α × ℕ)) (a : α × ℕ), ∃ r, l.foldl maxStep (some a) = some r := by
  intro l
  induction l with
  | nil => intro a; exact ⟨a, rfl⟩
  | cons q l ih =>
      intro a
      rw [List.foldl_cons, maxStep_some]
      exact ih _

theorem foldl_maxStep_mem {α : Type} :
    ∀ (l : List (α × ℕ)) (a r : α × ℕ), l.foldl maxStep (some a) = some r →
      r ∈ l ∨ r = a := by
  intro l
  induction l with
  | nil => intro a r h; simp at h; right; exact h.symm
  | cons q l ih =>
      intro a r h
      rw [List.foldl_cons, maxStep_some] at h
      rcases ih _ _ h with hm | he
      · left; exact List.mem_cons_of_mem _ hm
      · by_cases hle : a.2 ≤ q.2
        · rw [if_pos hle] at he; left; rw [he]; exact List.mem_cons_self _ _
        · rw [if_neg hle] at he; right; exact he

theorem foldl_maxStep_le {α : Type} :
    ∀ (l : List (α × ℕ)) (a r : α × ℕ), l.foldl maxStep (some a) = some r →
      a.2 ≤ r.2 ∧ ∀ q ∈ l, q.2 ≤ r.2 := by
  intro l
  induction l with
  | nil => intro a r h; simp at h; subst h; exact ⟨le_refl _, by simp⟩
  | cons q l ih =>
      intro a r h
      rw [List.foldl_cons, maxStep_some] at h
      have hstep := ih _ _ h
      by_cases hle : a.2 ≤ q.2
      · rw [if_pos hle] at hstep
        refine ⟨le_trans hle hstep.1, ?_⟩
        intro p hp
        rcases List.mem_cons.mp hp with rfl | hpl
        · exact hstep.1
        · exact hstep.2 p hpl
      · rw [if_neg hle] at hstep
        refine ⟨hstep.1, ?_⟩
        intro p hp
        rcases List.mem_cons.mp hp with rfl | hpl
        · exact le_trans (le_of_not_le hle) hstep.1
        · exact hstep.2 p hpl

theorem maxByKeyLast_spec {α : Type} (l : List (α × ℕ)) (hne : l ≠ []) :
    ∃ r, maxByKeyLast l = some r ∧ r ∈ l ∧ ∀ q ∈ l, q.2 ≤ r.2 := by
  cases l with
  | nil => exact absurd rfl hne
  | cons a l =>
      unfold maxByKeyLast
      rw [List.foldl_cons]
      show ∃ r, l.foldl maxStep (maxStep none a) = some r ∧ _
      obtain ⟨r, hr⟩ := foldl_maxStep_some l a
      refine ⟨r, hr, ?_, ?_⟩
      · rcases foldl_maxStep_mem l a r hr with hm | he
        · exact List.mem_cons_of_mem _ hm
        · rw [he]; exact List.mem_cons_self _ _
      · intro q hq
        have hle := foldl_maxStep_le l a r hr
        rcases List.mem_cons.mp hq with rfl | hql
        · exact hle.1
        · exact hle.2 q hql

theorem foldl_max_le_of {α : Type} :
    ∀ (l : List (α × ℕ)) (a m : ℕ), a ≤ m → (∀ p ∈ l, p.2 ≤ m) →
      l.foldl (fun acc p => max acc p.2) a ≤ m := by
  intro l
  induction l with
  | nil => intro a m ha _; simpa using ha
  | cons q l ih =>
      intro a m ha hl
      rw [List.foldl_cons]
      exact ih _ m (max_le ha (hl q (List.mem_cons_self _ _)))
        (fun p hp => hl p (List.mem_cons_of_mem _ hp))

theorem le_foldl_max_init {α : Type} :
    ∀ (l : List (α × ℕ)) (a : ℕ), a ≤ l.foldl (fun acc p => max acc p.2) a := by
  intro l
  induction l with
  | nil => intro a; simp
  | cons q l ih =>
      intro a
      rw [List.foldl_cons]
      exact le_trans (le_max_left _ _) (ih _)

theorem le_foldl_max_mem {α : Type} :
    ∀ (l : List (α × ℕ)) (a : ℕ) (p : α × ℕ), p ∈ l →
      p.2 ≤ l.foldl (fun acc p => max acc p.2) a := by
  intro l
  induction l with
  | nil => intro a p hp; simp at hp
  | cons q l ih =>
      intro a p hp
      rw [List.foldl_cons]
      rcases List.mem_cons.mp hp with rfl | hpl
      · exact le_trans (le_max_right _ _) (le_foldl_max_init _ _)
      · exact ih _ p hpl

theorem maxCount_eq {α : Type} [DecidableEq α] (key : List α) (r : α × ℕ)
    (hmem : r ∈ canonicalEntries key) (hmax : ∀ q ∈ canonicalEntries key, q.2 ≤ r.2) :
    maxCount key = r.2 := by
  unfold maxCount
  exact le_antisymm (foldl_max_le_of _ 0 r.2 (Nat.zero_le _) hmax) (le_foldl_max_mem _ 0 r hmem)

theorem canonicalEntries_ne_nil {α : Type} [DecidableEq α] (key : List α) (hk : key ≠ []) :
    canonicalEntries key ≠ [] := by
  unfold canonicalEntries
  simp [hk]

theorem selectedMode_spec {α : Type} [DecidableEq α] (d : α) (key : List α)
    (entries : List (α × ℕ)) (hk : key ≠ []) (hp : entries.Perm (canonicalEntries key)) :
    selectedMode d entries ∈ key ∧ countOf key (selectedMode d entries) = maxCount key := by
  have hne : entries ≠ [] := by
    intro h
    subst h
    exact canonicalEntries_ne_nil key hk hp.symm.eq_nil
  obtain ⟨r, hr, hrmem, hrmax⟩ := maxByKeyLast_spec entries hne
  have hsel : selectedMode d entries = r.1 := by
    unfold selectedMode
    rw [hr]
    rfl
  have hrc : r ∈ canonicalEntries key := hp.subset hrmem
  obtain ⟨a, ha, hra⟩ := List.mem_map.mp hrc
  have hmaxc : ∀ q ∈ canonicalEntries key, q.2 ≤ r.2 := fun q hq => hrmax q (hp.symm.subset hq)
  have h1 : maxCount key = r.2 := maxCount_eq key r hrc hmaxc
  have h2 : r.1 = a := by rw [← hra]
  have h3 : r.2 = countOf key a := by rw [← hra]
  constructor
  · rw [hsel, h2]
    exact List.dedup_subset _ ha
  · rw [hsel, h2, h1, h3]

theorem selectedMode_unique_inv {α : Type} [DecidableEq α] (d : α) (key : List α)
    (e1 e2 : List (α × ℕ)) (h1 : e1.Perm (canonicalEntries key))
    (h2 : e2.Perm (canonicalEntries key))
    (huniq : ∀ a ∈ key.dedup, ∀ b ∈ key.dedup,
      countOf key a = maxCount key → countOf key b = maxCount key → a = b) :
    selectedMode d e1 = selectedMode d e2 := by
  by_cases hk : key = []
  · subst hk
    have he1 : e1 = [] := by simpa [canonicalEntries] using h1.eq_nil
    have he2 : e2 = [] := by simpa [canonicalEntries] using h2.eq_nil
    rw [he1, he2]
  · obtain ⟨hm1, hc1⟩ := selectedMode_spec d key e1 hk h1
    obtain ⟨hm2, hc2⟩ := selectedMode_spec d key e2 hk h2
    exact huniq _ (List.mem_dedup.mpr hm1) _ (List.mem_dedup.mpr hm2) hc1 hc2

/-- C6 counterexample: for a cluster with one "ATM Withdrawal" and one
"Bill Payment" record (a tie at count 1), the `max_by_key` selection over the
entries in first-occurrence order picks "Bill Payment" (the LAST maximal
entry), while the spec's tie-break — lowest index in the fixed enumeration,
`specModeTxType` — picks "ATM Withdrawal". -/
theorem C6_counterexample :
    ([("ATM Withdrawal", 1), ("Bill Payment", 1)] : List (String × ℕ)).Perm
      (canonicalEntries ([plainTx "C1" "ATM Withdrawal" 0 0,
        plainTx "C2" "Bill Payment" 0 0].map (fun t => t.transaction_type))) ∧
    selectedMode "" [("ATM Withdrawal", 1), ("Bill Payment", 1)] = "Bill Payment" ∧
    specModeTxType [plainTx "C1" "ATM Withdrawal" 0 0, plainTx "C2" "Bill Payment" 0 0] =
      "ATM Withdrawal" ∧
    typeIndex "ATM Withdrawal" < typeIndex "Bill Payment" := by
  refine ⟨?_, rfl, ?_, ?_⟩
  · decide
  · decide
  · decide

/-- C9 counterexample: two valid iteration orders of the same category-count
HashMap (both permutations of the canonical entries of the same cluster)
make `max_by_key` select different most-common transaction types, so a rerun
with a different process hash seed need not produce identical output. -/
theorem C9_counterexample :
    ([("ATM Withdrawal", 1), ("Bill Payment", 1)] : List (String × ℕ)).Perm
      (canonicalEntries ([plainTx "C1" "ATM Withdrawal" 0 0,
        plainTx "C2" "Bill Payment" 0 0].map (fun t => t.transaction_type))) ∧
    ([("Bill Payment", 1), ("ATM Withdrawal", 1)] : List (String × ℕ)).Perm
      (canonicalEntries ([plainTx "C1" "ATM Withdrawal" 0 0,
        plainTx "C2" "Bill Payment" 0 0].map (fun t => t.transaction_type))) ∧
    selectedMode "" [("ATM Withdrawal", 1), ("Bill Payment", 1)] ≠
      selectedMode "" [("Bill Payment", 1), ("ATM Withdrawal", 1)] := by
  refine ⟨by decide, by decide, by decide⟩

theorem zip_filter_snd_length {α : Type} :
    ∀ (xs : List α) (ys : List ℕ) (i : ℕ), xs.length = ys.length →
      ((xs.zip ys).filter (fun p => p.2 = i)).length = ys.count i := by
  intro xs
  induction xs with
  | nil =>
      intro ys i h
      have : ys = [] := by cases ys <;> simp_all
      subst this
      simp
  | cons a xs ih =>
      intro ys i h
      cases ys with
      | nil => simp at h
      | cons b ys =>
          have hlen : xs.length = ys.length := by simpa using h
          simp only [List.zip_cons_cons, List.filter_cons, List.count_cons]
          by_cases hb : b = i
          · subst hb
            simp [ih ys b hlen]
          · simp [hb, Ne.symm hb, ih ys i hlen]

theorem list_map_range_sum (f : ℕ → ℕ) (k : ℕ) :
    ((List.range k).map f).sum = ∑ i in Finset.range k, f i := by
  induction k with
  | zero => simp
  | succ n ih => rw [List.range_succ]; simp [ih, Finset.sum_range_succ]

theorem sum_range_count_eq_length (l : List ℕ) (k : ℕ) (h : ∀ x ∈ l, x < k) :
    ∑ i in Finset.range k, l.count i = l.length := by
  induction l with
  | nil => simp
  | cons a l ih =>
      have ha : a < k := h a (List.mem_cons_self _ _)
      have ih2 := ih (fun x hx => h x (List.mem_cons_of_mem _ hx))
      simp only [List.count_cons, List.length_cons]
      rw [Finset.sum_add_distrib, ih2]
      simp [ha]

theorem clusterMembers_length (pred : ℕ → ℕ) (txs : List Transaction) (idx : ℕ) :
    (clusterMembers pred txs idx).length = (predictions pred txs).count idx := by
  unfold clusterMembers
  rw [List.length_map]
  exact zip_filter_snd_length txs (predictions pred txs) idx (by simp [predictions])

theorem clusterAnalyses_size_sum_aux (pred : ℕ → ℕ) (txs : List Transaction) :
    ∀ (l : List ℕ),
      ((l.filterMap (clusterOf pred txs)).map (fun c => c.size)).sum =
      (l.map (fun i => (clusterMembers pred txs i).length)).sum := by
  intro l
  induction l with
  | nil => simp
  | cons i l ih =>
      rw [List.filterMap_cons, List.map_cons, List.sum_cons]
      by_cases h : (clusterMembers pred txs i).isEmpty
      · have hnone : clusterOf pred txs i = none := by
          unfold clusterOf
          simp [h]
        rw [hnone, ih]
        have : (clusterMembers pred txs i).length = 0 := by
          rw [List.isEmpty_iff] at h
          simp [h]
        rw [this]
        omega
      · have hsome : clusterOf pred txs i = some
            { size := (clusterMembers pred txs i).length
              fraud_count := ((clusterMembers pred txs i).filter
                (fun t => t.fraudulent = some 1)).length
              unique_users := (((clusterMembers pred txs i).map (fun t => t.user_id)).dedup).length
              avg_features := (sumFeatures (nFeaturesOf txs)
                ((clusterMembers pred txs i).map Transaction.to_feature_vector)).map
                  (fun v => v / ((clusterMembers pred txs i).length : ℝ))
              most_common_tx_type := selectedMode "" (canonicalEntries
                ((clusterMembers pred txs i).map (fun t => t.transaction_type)))
              most_common_payment := selectedMode none (canonicalEntries
                ((clusterMembers pred txs i).map (fun t => t.payment_method))) } := by
          unfold clusterOf
          simp [h]
        rw [hsome, List.map_cons, List.sum_cons, ih]

theorem clusterAnalyses_sizes (pred : ℕ → ℕ) (txs : List Transaction) (k : ℕ)
    (hpred : ∀ i < txs.length, pred i < k) :
    ((clusterAnalyses pred txs k).map (fun c => c.size)).sum = txs.length := by
  unfold clusterAnalyses
  rw [clusterAnalyses_size_sum_aux]
  have hcnt : ∀ i, (clusterMembers pred txs i).length = (predictions pred txs).count i :=
    clusterMembers_length pred txs
  calc ((List.range k).map (fun i => (clusterMembers pred txs i).length)).sum
      = ((List.range k).map (fun i => (predictions pred txs).count i)).sum := by
        congr 1
        exact List.map_congr_left (fun i _ => hcnt i)
    _ = ∑ i in Finset.range k, (predictions pred txs).count i := list_map_range_sum _ k
    _ = (predictions pred txs).length := by
        apply sum_range_count_eq_length
        intro x hx
        unfold predictions at hx
        obtain ⟨j, hj, rfl⟩ := List.mem_map.mp hx
        exact hpred j (List.mem_range.mp hj)
    _ = txs.length := by simp [predictions]

theorem clusterAnalyses_mem_spec (pred : ℕ → ℕ) (txs : List Transaction) (k : ℕ) :
    ∀ c ∈ clusterAnalyses pred txs k,
      0 < c.size ∧ c.fraud_count ≤ c.size ∧ c.unique_users ≤ c.size := by
  intro c hc
  obtain ⟨i, _, hsome⟩ := List.mem_filterMap.mp hc
  unfold clusterOf at hsome
  by_cases h : (clusterMembers pred txs i).isEmpty
  · simp [h] at hsome
  · rw [if_neg h] at hsome
    have hne : (clusterMembers pred txs i).length ≠ 0 := by
      rw [List.isEmpty_iff] at h
      simpa [List.length_eq_zero] using h
    obtain rfl := Option.some_injective _ hsome
    refine ⟨Nat.pos_of_ne_zero hne, ?_, ?_⟩
    · exact List.length_filter_le _ _
    · calc (((clusterMembers pred txs i).map (fun t => t.user_id)).dedup).length
          ≤ ((clusterMembers pred txs i).map (fun t => t.user_id)).length :=
            List.Sublist.length_le (List.dedup_sublist _)
        _ = (clusterMembers pred txs i).length := List.length_map _ _

theorem getLastD_of_all_eq {α : Type} :
    ∀ (l : List α) (a d : α), l ≠ [] → (∀ x ∈ l, x = a) → l.getLastD d = a := by
  intro l
  induction l with
  | nil => intro a d h _; exact absurd rfl h
  | cons x l ih =>
      intro a d _ hall
      cases l with
      | nil => simpa using hall x (List.mem_cons_self _ _)
      | cons y t =>
          show (y :: t).getLastD x = a
          exact ih a x (by simp) (fun z hz => hall z (List.mem_cons_of_mem _ hz))

theorem tidAt_eq_getElem (txs : List Transaction) (i : ℕ) (hi : i < txs.length) :
    tidAt txs i = txs[i].transaction_id := by
  unfold tidAt
  simp [List.getD_eq_getElem?_getD, List.getElem?_eq_getElem hi]

theorem lastOcc_of_nodup (txs : List Transaction) (i : ℕ) (hi : i < txs.length)
    (h : (txs.map (fun t => t.transaction_id)).Nodup) :
    lastOcc txs (tidAt txs i) = i := by
  unfold lastOcc
  apply getLastD_of_all_eq
  · intro hnil
    have : i ∈ (List.range txs.length).filter (fun k => tidAt txs k = tidAt txs i) := by
      simp [List.mem_filter, List.mem_range, hi]
    rw [hnil] at this
    simp at this
  · intro k hk
    obtain ⟨hkr, hkt⟩ := List.mem_filter.mp hk
    have hkn : k < txs.length := List.mem_range.mp hkr
    have hkt2 : tidAt txs k = tidAt txs i := by simpa using hkt
    rw [tidAt_eq_getElem txs k hkn, tidAt_eq_getElem txs i hi] at hkt2
    have hlen : k < (txs.map (fun t => t.transaction_id)).length := by simpa using hkn
    have hleni : i < (txs.map (fun t => t.transaction_id)).length := by simpa using hi
    have : (txs.map (fun t => t.transaction_id))[k] =
        (txs.map (fun t => t.transaction_id))[i] := by
      simpa using hkt2
    exact h.getElem_inj_iff.mp this

theorem mem_pairsList (n i j : ℕ) : (i, j) ∈ pairsList n ↔ i < j ∧ j < n := by
  unfold pairsList
  simp only [List.mem_flatMap, List.mem_map, List.mem_range, List.mem_range']
  constructor
  · rintro ⟨a, ha, b, ⟨c, hc, rfl⟩, heq⟩
    obtain ⟨rfl, rfl⟩ := Prod.mk.injEq .. ▸ heq
    · constructor <;> omega
  · rintro ⟨hij, hjn⟩
    exact ⟨i, by omega, j, ⟨j - (i + 1), by omega, by omega⟩, rfl⟩

theorem pairsList_nodup (n : ℕ) : (pairsList n).Nodup := by
  unfold pairsList
  rw [List.nodup_flatMap]
  constructor
  · intro i _
    apply List.Nodup.map
    · intro a b hab
      simpa using hab
    · exact List.nodup_range' _ _
  · apply List.Pairwise.imp ?_ (List.nodup_range n)
    intro a b hab
    simp only [Function.onFun, List.disjoint_left]
    rintro ⟨x, y⟩ hx hy
    obtain ⟨c, _, hc⟩ := List.mem_map.mp hx
    obtain ⟨d, _, hd⟩ := List.mem_map.mp hy
    have ha : a = x := congrArg Prod.fst hc
    have hb : b = x := congrArg Prod.fst hd
    exact hab (by omega)

theorem edges_of_nodup_ids (txs : List Transaction)
    (h : (txs.map (fun t => t.transaction_id)).Nodup) :
    (build_transaction_graph txs).edges = (pairsList txs.length).filterMap fun p =>
      let similarity := cosine_similarity (featAt txs p.1) (featAt txs p.2)
      if 0.7 < similarity then some (p.1, p.2, similarity) else none := by
  unfold build_transaction_graph
  apply List.filterMap_congr
  intro p hp
  obtain ⟨hij, hjn⟩ := (mem_pairsList txs.length p.1 p.2).mp (by simpa using hp)
  rw [lastOcc_of_nodup txs p.1 (by omega) h, lastOcc_of_nodup txs p.2 hjn h]

theorem edges_mem_spec (txs : List Transaction)
    (h : (txs.map (fun t => t.transaction_id)).Nodup) :
    ∀ e ∈ (build_transaction_graph txs).edges,
      e.1 < e.2.1 ∧ e.2.1 < txs.length ∧
      e.2.2 = cosine_similarity (featAt txs e.1) (featAt txs e.2.1) ∧
      0.7 < e.2.2 := by
  intro e he
  rw [edges_of_nodup_ids txs h] at he
  obtain ⟨p, hp, hpe⟩ := List.mem_filterMap.mp he
  obtain ⟨hij, hjn⟩ := (mem_pairsList txs.length p.1 p.2).mp (by simpa using hp)
  by_cases hc : 0.7 < cosine_similarity (featAt txs p.1) (featAt txs p.2)
  · simp only [hc, if_pos] at hpe
    have he2 : e = (p.1, p.2, cosine_similarity (featAt txs p.1) (featAt txs p.2)) :=
      (Option.some_inj.mp hpe).symm
    subst he2
    exact ⟨hij, hjn, rfl, hc⟩
  · simp [hc] at hpe

theorem edge_mem_iff (txs : List Transaction)
    (h : (txs.map (fun t => t.transaction_id)).Nodup) (i j : ℕ) (hij : i < j)
    (hjn : j < txs.length) :
    (∃ w, (i, j, w) ∈ (build_transaction_graph txs).edges) ↔
      0.7 < cosine_similarity (featAt txs i) (featAt txs j) := by
  rw [edges_of_nodup_ids txs h]
  constructor
  · rintro ⟨w, hw⟩
    obtain ⟨p, hp, hpe⟩ := List.mem_filterMap.mp hw
    by_cases hc : 0.7 < cosine_similarity (featAt txs p.1) (featAt txs p.2)
    · simp only [hc, if_pos] at hpe
      have heq := Option.some_inj.mp hpe
      have h1 : p.1 = i := congrArg Prod.fst heq
      have h2 : p.2 = j := congrArg (fun q => q.2.1) heq
      rw [← h1, ← h2]
      exact hc
    · simp [hc] at hpe
  · intro hc
    refine ⟨cosine_similarity (featAt txs i) (featAt txs j), ?_⟩
    apply List.mem_filterMap.mpr
    refine ⟨(i, j), (mem_pairsList txs.length i j).mpr ⟨hij, hjn⟩, ?_⟩
    simp [hc]

theorem edges_pairs_nodup (txs : List Transaction)
    (h : (txs.map (fun t => t.transaction_id)).Nodup) :
    ((build_transaction_graph txs).edges.map (fun e => (e.1, e.2.1))).Nodup := by
  rw [edges_of_nodup_ids txs h, List.map_filterMap]
  apply List.Nodup.filterMap ?_ (pairsList_nodup txs.length)
  intro a a' b hb hb'
  by_cases hc : 0.7 < cosine_similarity (featAt txs a.1) (featAt txs a.2)
  · by_cases hc2 : 0.7 < cosine_similarity (featAt txs a'.1) (featAt txs a'.2)
    · simp only [hc, hc2, if_pos, Option.map_some', Option.mem_def, Option.some_inj] at hb hb'
      have h2 : (a.1, a.2) = ((a'.1, a'.2) : ℕ × ℕ) := by rw [hb, hb']
      exact Prod.ext (congrArg Prod.fst h2) (congrArg Prod.snd h2)
    · simp [hc2] at hb'
  · simp [hc] at hb

theorem mem_neighbors (g : FGraph) (v z : ℕ) :
    z ∈ neighbors g v ↔ ∃ e ∈ g.edges,
      (e.1 = v ∧ e.2.1 = z) ∨ (e.1 ≠ v ∧ e.2.1 = v ∧ e.1 = z) := by
  unfold neighbors
  rw [List.mem_filterMap]
  constructor
  · rintro ⟨e, he, hfe⟩
    refine ⟨e, he, ?_⟩
    by_cases h1 : e.1 = v
    · rw [if_pos h1] at hfe
      exact Or.inl ⟨h1, Option.some_inj.mp hfe⟩
    · rw [if_neg h1] at hfe
      by_cases h2 : e.2.1 = v
      · rw [if_pos h2] at hfe
        exact Or.inr ⟨h1, h2, Option.some_inj.mp hfe⟩
      · rw [if_neg h2] at hfe
        simp at hfe
  · rintro ⟨e, he, hcase | hcase⟩
    · exact ⟨e, he, by rw [if_pos hcase.1, hcase.2]⟩
    · exact ⟨e, he, by rw [if_neg hcase.1, if_pos hcase.2.1, hcase.2.2]⟩

theorem neighbors_symm (g : FGraph) (v z : ℕ) (h : z ∈ neighbors g v) :
    v ∈ neighbors g z := by
  rw [mem_neighbors] at h ⊢
  obtain ⟨e, he, hcase | hcase⟩ := h
  · by_cases h1 : e.1 = z
    · refine ⟨e, he, Or.inl ⟨h1, ?_⟩⟩
      rw [hcase.2, ← h1, hcase.1]
    · exact ⟨e, he, Or.inr ⟨h1, hcase.2, hcase.1⟩⟩
  · exact ⟨e, he, Or.inl ⟨hcase.2.2, hcase.2.1⟩⟩

theorem neighbors_lt (g : FGraph) (hg : ∀ e ∈ g.edges, e.1 < g.n ∧ e.2.1 < g.n)
    (v z : ℕ) (h : z ∈ neighbors g v) : z < g.n := by
  rw [mem_neighbors] at h
  obtain ⟨e, he, hcase | hcase⟩ := h
  · exact hcase.2 ▸ (hg e he).2
  · exact hcase.2.2 ▸ (hg e he).1

theorem neighbors_ne (g : FGraph) (hg : ∀ e ∈ g.edges, e.1 ≠ e.2.1)
    (v z : ℕ) (h : z ∈ neighbors g v) : z ≠ v := by
  rw [mem_neighbors] at h
  obtain ⟨e, he, hcase | hcase⟩ := h
  · rw [← hcase.1, ← hcase.2]
    exact fun hh => hg e he hh.symm
  · rw [← hcase.2.1, ← hcase.2.2]
    exact fun hh => hg e he hh

theorem neighbors_nodup_aux (v : ℕ) :
    ∀ (es : List (ℕ × ℕ × ℝ)), (es.map (fun e => (e.1, e.2.1))).Nodup →
      (∀ e ∈ es, e.1 < e.2.1) →
      (es.filterMap (fun e =>
        if e.1 = v then some e.2.1 else if e.2.1 = v then some e.1 else none)).Nodup := by
  intro es
  induction es with
  | nil => intro _ _; simp
  | cons e rest ih =>
      intro hnd hlt
      rw [List.map_cons, List.nodup_cons] at hnd
      have ihr := ih hnd.2 (fun x hx => hlt x (List.mem_cons_of_mem _ hx))
      rw [List.filterMap_cons]
      rcases hz : (if e.1 = v then some e.2.1 else if e.2.1 = v then some e.1 else none) with
        _ | z
      · exact ihr
      · rw [List.nodup_cons]
        refine ⟨?_, ihr⟩
        intro hzin
        obtain ⟨e2, he2, hfe2⟩ := List.mem_filterMap.mp hzin
        have hpair : (e.1, e.2.1) = (e2.1, e2.2.1) := by
          have hlt1 := hlt e (List.mem_cons_self _ _)
          have hlt2 := hlt e2 (List.mem_cons_of_mem _ he2)
          by_cases a1 : e.1 = v
          · rw [if_pos a1] at hz
            have hz1 := Option.some_inj.mp hz
            by_cases a2 : e2.1 = v
            · rw [if_pos a2] at hfe2
              have hz2 := Option.some_inj.mp hfe2
              rw [a1, a2, hz1, hz2]
            · rw [if_neg a2] at hfe2
              by_cases b2 : e2.2.1 = v
              · rw [if_pos b2] at hfe2
                have hz2 := Option.some_inj.mp hfe2
                exfalso
                omega
              · rw [if_neg b2] at hfe2
                simp at hfe2
          · rw [if_neg a1] at hz
            by_cases b1 : e.2.1 = v
            · rw [if_pos b1] at hz
              have hz1 := Option.some_inj.mp hz
              by_cases a2 : e2.1 = v
              · rw [if_pos a2] at hfe2
                have hz2 := Option.some_inj.mp hfe2
                exfalso
                omega
              · rw [if_neg a2] at hfe2
                by_cases b2 : e2.2.1 = v
                · rw [if_pos b2] at hfe2
                  have hz2 := Option.some_inj.mp hfe2
                  rw [b1, b2, show e.1 = e2.1 from by rw [hz1, ← hz2]]
                · rw [if_neg b2] at hfe2
                  simp at hfe2
            · rw [if_neg b1] at hz
              simp at hz
        exact hnd.1 (List.mem_map.mpr ⟨e2, he2, hpair.symm⟩)

theorem filter_unvisited_cons (N nb : ℕ) (visited : List ℕ) (h1 : nb < N) (h2 : nb ∉ visited) :
    ((List.range N).filter (fun x => x ∉ nb :: visited)).length + 1 =
    ((List.range N).filter (fun x => x ∉ visited)).length := by
  have hcong : (List.range N).filter (fun x => x ∉ nb :: visited) =
      ((List.range N).filter (fun x => x ∉ visited)).filter (fun x => x != nb) := by
    rw [List.filter_filter]
    apply List.filter_congr
    intro x _
    by_cases hx : x = nb <;> simp [hx, List.mem_cons, not_or, and_comm]
  rw [hcong]
  have hmem : nb ∈ (List.range N).filter (fun x => x ∉ visited) := by
    simp [List.mem_filter, List.mem_range, h1, h2]
  have hnd : ((List.range N).filter (fun x => x ∉ visited)).Nodup :=
    (List.nodup_range N).filter _
  rw [← hnd.erase_eq_filter nb, List.length_erase_of_mem hmem]
  have : 0 < ((List.range N).filter (fun x => x ∉ visited)).length :=
    List.length_pos.mpr (List.ne_nil_of_mem hmem)
  omega

theorem dfsPush_stack_mem (x : ℕ) :
    ∀ (nbs visited stack : List ℕ),
      (x ∈ (dfsPush visited stack nbs).1 ↔ x ∈ stack ∨ (x ∈ nbs ∧ x ∉ visited)) := by
  intro nbs
  induction nbs with
  | nil => intro visited stack; simp [dfsPush]
  | cons nb nbs ih =>
      intro visited stack
      unfold dfsPush
      by_cases h : nb ∈ visited
      · rw [if_pos h, ih]
        constructor
        · rintro (hs | ⟨hn, hv⟩)
          · exact Or.inl hs
          · exact Or.inr ⟨List.mem_cons_of_mem _ hn, hv⟩
        · rintro (hs | ⟨hn, hv⟩)
          · exact Or.inl hs
          · rcases List.mem_cons.mp hn with rfl | hn2
            · exact absurd h hv
            · exact Or.inr ⟨hn2, hv⟩
      · rw [if_neg h, ih]
        constructor
        · rintro (hs | ⟨hn, hv⟩)
          · rcases List.mem_cons.mp hs with rfl | hs2
            · exact Or.inr ⟨List.mem_cons_self _ _, h⟩
            · exact Or.inl hs2
          · have hv2 : x ∉ visited := fun hx => hv (List.mem_cons_of_mem _ hx)
            exact Or.inr ⟨List.mem_cons_of_mem _ hn, hv2⟩
        · rintro (hs | ⟨hn, hv⟩)
          · exact Or.inl (List.mem_cons_of_mem _ hs)
          · rcases List.mem_cons.mp hn with rfl | hn2
            · exact Or.inl (List.mem_cons_self _ _)
            · by_cases hxnb : x = nb
              · subst hxnb
                exact Or.inl (List.mem_cons_self _ _)
              · exact Or.inr ⟨hn2, by simp [List.mem_cons, hxnb, hv]⟩

theorem dfsPush_visited_mem (x : ℕ) :
    ∀ (nbs visited stack : List ℕ),
      (x ∈ (dfsPush visited stack nbs).2 ↔ x ∈ visited ∨ x ∈ nbs) := by
  intro nbs
  induction nbs with
  | nil => intro visited stack; simp [dfsPush]
  | cons nb nbs ih =>
      intro visited stack
      unfold dfsPush
      by_cases h : nb ∈ visited
      · rw [if_pos h, ih]
        constructor
        · rintro (hv | hn)
          · exact Or.inl hv
          · exact Or.inr (List.mem_cons_of_mem _ hn)
        · rintro (hv | hn)
          · exact Or.inl hv
          · rcases List.mem_cons.mp hn with rfl | hn2
            · exact Or.inl h
            · exact Or.inr hn2
      · rw [if_neg h, ih]
        constructor
        · rintro (hv | hn)
          · rcases List.mem_cons.mp hv with rfl | hv2
            · exact Or.inr (List.mem_cons_self _ _)
            · exact Or.inl hv2
          · exact Or.inr (List.mem_cons_of_mem _ hn)
        · rintro (hv | hn)
          · exact Or.inl (List.mem_cons_of_mem _ hv)
          · rcases List.mem_cons.mp hn with rfl | hn2
            · exact Or.inl (List.mem_cons_self _ _)
            · exact Or.inr hn2

theorem dfsPush_measure (N : ℕ) :
    ∀ (nbs visited stack : List ℕ), (∀ b ∈ nbs, b < N) →
      ((List.range N).filter (fun x => x ∉ (dfsPush visited stack nbs).2)).length +
        (dfsPush visited stack nbs).1.length ≤
      ((List.range N).filter (fun x => x ∉ visited)).length + stack.length := by
  intro nbs
  induction nbs with
  | nil => intro visited stack _; simp [dfsPush]
  | cons nb nbs ih =>
      intro visited stack hb
      have hnb : nb < N := hb nb (List.mem_cons_self _ _)
      have hbs : ∀ b ∈ nbs, b < N := fun b hbn => hb b (List.mem_cons_of_mem _ hbn)
      unfold dfsPush
      by_cases h : nb ∈ visited
      · rw [if_pos h]
        exact ih visited stack hbs
      · rw [if_neg h]
        calc ((List.range N).filter
              (fun x => x ∉ (dfsPush (nb :: visited) (nb :: stack) nbs).2)).length +
              (dfsPush (nb :: visited) (nb :: stack) nbs).1.length
            ≤ ((List.range N).filter (fun x => x ∉ nb :: visited)).length +
              (nb :: stack).length := ih (nb :: visited) (nb :: stack) hbs
          _ = ((List.range N).filter (fun x => x ∉ nb :: visited)).length + stack.length + 1 := by
              simp only [List.length_cons]
              omega
          _ = ((List.range N).filter (fun x => x ∉ visited)).length + stack.length := by
              have := filter_unvisited_cons N nb visited hnb h
              omega

theorem dfsPush_stack_nodup :
    ∀ (nbs visited stack : List ℕ), stack.Nodup → (∀ s ∈ stack, s ∈ visited) →
      (dfsPush visited stack nbs).1.Nodup ∧
      (∀ s ∈ (dfsPush visited stack nbs).1, s ∈ (dfsPush visited stack nbs).2) := by
  intro nbs
  induction nbs with
  | nil => intro visited stack hnd hsv; exact ⟨hnd, hsv⟩
  | cons nb nbs ih =>
      intro visited stack hnd hsv
      unfold dfsPush
      by_cases h : nb ∈ visited
      · rw [if_pos h]
        exact ih visited stack hnd hsv
      · rw [if_neg h]
        apply ih (nb :: visited) (nb :: stack)
        · rw [List.nodup_cons]
          exact ⟨fun hns => h (hsv nb hns), hnd⟩
        · intro s hs
          rcases List.mem_cons.mp hs with rfl | hs2
          · exact List.mem_cons_self _ _
          · exact List.mem_cons_of_mem _ (hsv s hs2)

theorem dfsLoop_nil (g : FGraph) (fuel : ℕ) (visited component : List ℕ) :
    dfsLoop g fuel [] visited component = (component, visited) := by
  cases fuel <;> rfl

theorem dfsLoop_spec (g : FGraph) (hg : ∀ e ∈ g.edges, e.1 < g.n ∧ e.2.1 < g.n) :
    ∀ (fuel : ℕ) (stack visited component : List ℕ),
      ((List.range g.n).filter (fun x => x ∉ visited)).length + stack.length ≤ fuel →
      (∀ s ∈ stack, s ∈ visited) →
      (∀ s ∈ stack, s < g.n) →
      (∀ c ∈ component, c ∈ visited) →
      (∀ c ∈ component, c < g.n) →
      (∀ c ∈ component, ∀ z ∈ neighbors g c, z ∈ visited) →
      (component ++ stack).Nodup →
      (∀ x, x ∈ (dfsLoop g fuel stack visited component).2 ↔
        x ∈ visited ∨ x ∈ (dfsLoop g fuel stack visited component).1) ∧
      (∀ w ∈ (dfsLoop g fuel stack visited component).1,
        ∀ z ∈ neighbors g w, z ∈ (dfsLoop g fuel stack visited component).2) ∧
      (dfsLoop g fuel stack visited component).1.Nodup ∧
      (∀ x ∈ (dfsLoop g fuel stack visited component).1,
        x ∈ component ∨ x ∈ stack ∨ x ∉ visited) ∧
      (∀ x ∈ (dfsLoop g fuel stack visited component).1, x < g.n) ∧
      (∀ x ∈ component, x ∈ (dfsLoop g fuel stack visited component).1) ∧
      (∀ s ∈ stack, s ∈ (dfsLoop g fuel stack visited component).1) := by
  intro fuel
  induction fuel with
  | zero =>
      intro stack visited component hfuel hsv hsb hcv hcb hcn hnd
      cases stack with
      | cons a s => simp at hfuel
      | nil =>
          rw [dfsLoop_nil]
          refine ⟨?_, hcn, by simpa using hnd, fun x hx => Or.inl hx, hcb,
            fun x hx => hx, by simp⟩
          intro x
          constructor
          · exact fun hx => Or.inl hx
          · rintro (hx | hx)
            · exact hx
            · exact hcv x hx
  | succ fuel ih =>
      intro stack visited component hfuel hsv hsb hcv hcb hcn hnd
      cases stack with
      | nil =>
          rw [dfsLoop_nil]
          refine ⟨?_, hcn, by simpa using hnd, fun x hx => Or.inl hx, hcb,
            fun x hx => hx, by simp⟩
          intro x
          constructor
          · exact fun hx => Or.inl hx
          · rintro (hx | hx)
            · exact hx
            · exact hcv x hx
      | cons current stack =>
          have hstep : dfsLoop g (fuel + 1) (current :: stack) visited component =
              dfsLoop g fuel (dfsPush visited stack (neighbors g current)).1
                (dfsPush visited stack (neighbors g current)).2 (component ++ [current]) := rfl
          rw [hstep]
          have hcur_v : current ∈ visited := hsv current (List.mem_cons_self _ _)
          have hcur_n : current < g.n := hsb current (List.mem_cons_self _ _)
          have hnbs_lt : ∀ b ∈ neighbors g current, b < g.n :=
            fun b hbn => neighbors_lt g hg current b hbn
          have hsv_tail : ∀ s ∈ stack, s ∈ visited :=
            fun s hs => hsv s (List.mem_cons_of_mem _ hs)
          have hsb_tail : ∀ s ∈ stack, s < g.n :=
            fun s hs => hsb s (List.mem_cons_of_mem _ hs)
          have hnd_parts : component.Nodup ∧ (current :: stack).Nodup ∧
              ∀ x ∈ component, x ∉ current :: stack := by
            rw [List.nodup_append] at hnd
            exact ⟨hnd.1, hnd.2.1, fun x hx hm => hnd.2.2 hx hm⟩
          have hstack_nd : stack.Nodup := (List.nodup_cons.mp hnd_parts.2.1).2
          have hcur_stack : current ∉ stack := (List.nodup_cons.mp hnd_parts.2.1).1
          have hcur_comp : current ∉ component :=
            fun hx => hnd_parts.2.2 current hx (List.mem_cons_self _ _)
          have hpush := dfsPush_stack_nodup (neighbors g current) visited stack hstack_nd hsv_tail
          have hfuel2 : ((List.range g.n).filter
              (fun x => x ∉ (dfsPush visited stack (neighbors g current)).2)).length +
              (dfsPush visited stack (neighbors g current)).1.length ≤ fuel := by
            have hm := dfsPush_measure g.n (neighbors g current) visited stack hnbs_lt
            simp only [List.length_cons] at hfuel
            omega
          have hsb2 : ∀ s ∈ (dfsPush visited stack (neighbors g current)).1, s < g.n := by
            intro s hs
            rcases (dfsPush_stack_mem s (neighbors g current) visited stack).mp hs with
              hs2 | ⟨hs2, _⟩
            · exact hsb_tail s hs2
            · exact hnbs_lt s hs2
          have hcv2 : ∀ c ∈ component ++ [current],
              c ∈ (dfsPush visited stack (neighbors g current)).2 := by
            intro c hc
            apply (dfsPush_visited_mem c (neighbors g current) visited stack).mpr
            rcases List.mem_append.mp hc with hc2 | hc2
            · exact Or.inl (hcv c hc2)
            · rw [List.mem_singleton.mp hc2]
              exact Or.inl hcur_v
          have hcb2 : ∀ c ∈ component ++ [current], c < g.n := by
            intro c hc
            rcases List.mem_append.mp hc with hc2 | hc2
            · exact hcb c hc2
            · rw [List.mem_singleton.mp hc2]
              exact hcur_n
          have hcn2 : ∀ c ∈ component ++ [current], ∀ z ∈ neighbors g c,
              z ∈ (dfsPush visited stack (neighbors g current)).2 := by
            intro c hc z hz
            apply (dfsPush_visited_mem z (neighbors g current) visited stack).mpr
            rcases List.mem_append.mp hc with hc2 | hc2
            · exact Or.inl (hcn c hc2 z hz)
            · rw [List.mem_singleton.mp hc2] at hz
              exact Or.inr hz
          have hnd2 : ((component ++ [current]) ++
              (dfsPush visited stack (neighbors g current)).1).Nodup := by
            rw [List.append_assoc, List.nodup_append]
            refine ⟨hnd_parts.1, ?_, ?_⟩
            · rw [List.singleton_append, List.nodup_cons]
              refine ⟨?_, hpush.1⟩
              intro hcp
              rcases (dfsPush_stack_mem current (neighbors g current) visited stack).mp hcp with
                hc2 | ⟨_, hc2⟩
              · exact hcur_stack hc2
              · exact hc2 hcur_v
            · intro x hx
              rw [List.singleton_append, List.mem_cons]
              rintro (rfl | hxp)
              · exact hcur_comp hx
              · rcases (dfsPush_stack_mem x (neighbors g current) visited stack).mp hxp with
                  hx2 | ⟨_, hx2⟩
                · exact hnd_parts.2.2 x hx (List.mem_cons_of_mem _ hx2)
                · exact hx2 (hcv x hx)
          obtain ⟨R1, R2, R3, R4, R5, R6, R7⟩ :=
            ih (dfsPush visited stack (neighbors g current)).1
              (dfsPush visited stack (neighbors g current)).2 (component ++ [current])
              hfuel2 hpush.2 hsb2 hcv2 hcb2 hcn2 hnd2
          refine ⟨?_, R2, R3, ?_, R5, ?_, ?_⟩
          · intro x
            rw [R1, dfsPush_visited_mem]
            constructor
            · rintro ((hx | hx) | hx)
              · exact Or.inl hx
              · by_cases hxv : x ∈ visited
                · exact Or.inl hxv
                · refine Or.inr (R7 x ?_)
                  exact (dfsPush_stack_mem x (neighbors g current) visited stack).mpr
                    (Or.inr ⟨hx, hxv⟩)
              · exact Or.inr hx
            · rintro (hx | hx)
              · exact Or.inl (Or.inl hx)
              · exact Or.inr hx
          · intro x hx
            rcases R4 x hx with hx2 | hx2 | hx2
            · rcases List.mem_append.mp hx2 with hx3 | hx3
              · exact Or.inl hx3
              · rw [List.mem_singleton.mp hx3]
                exact Or.inr (Or.inl (List.mem_cons_self _ _))
            · rcases (dfsPush_stack_mem x (neighbors g current) visited stack).mp hx2 with
                hx3 | ⟨_, hx3⟩
              · exact Or.inr (Or.inl (List.mem_cons_of_mem _ hx3))
              · exact Or.inr (Or.inr hx3)
            · refine Or.inr (Or.inr ?_)
              intro hxv
              exact hx2 ((dfsPush_visited_mem x (neighbors g current) visited stack).mpr
                (Or.inl hxv))
          · intro x hx
            exact R6 x (List.mem_append.mpr (Or.inl hx))
          · intro s hs
            rcases List.mem_cons.mp hs with rfl | hs2
            · exact R6 s (List.mem_append.mpr (Or.inr (List.mem_singleton.mpr rfl)))
            · exact R7 s ((dfsPush_stack_mem s (neighbors g current) visited stack).mpr
                (Or.inl hs2))

theorem componentsAux_cons (g : FGraph) (v : ℕ) (vs visited : List ℕ) :
    componentsAux g (v :: vs) visited =
      if v ∈ visited then componentsAux g vs visited
      else (dfsLoop g (g.n + 1) [v] (v :: visited) []).1 ::
        componentsAux g vs (dfsLoop g (g.n + 1) [v] (v :: visited) []).2 := rfl

theorem componentsAux_spec (g : FGraph) (hg : ∀ e ∈ g.edges, e.1 < g.n ∧ e.2.1 < g.n) :
    ∀ (vs visited : List ℕ),
      (∀ v ∈ vs, v < g.n) →
      (∀ u ∈ visited, ∀ z ∈ neighbors g u, z ∈ visited) →
      (∀ c ∈ componentsAux g vs visited, ∀ w ∈ c, ∀ z ∈ neighbors g w, z ∈ c) ∧
      (componentsAux g vs visited).flatten.Nodup ∧
      (∀ x ∈ (componentsAux g vs visited).flatten, x ∉ visited ∧ x < g.n) ∧
      (∀ u ∈ vs, u ∈ visited ∨ u ∈ (componentsAux g vs visited).flatten) := by
  intro vs
  induction vs with
  | nil =>
      intro visited _ _
      simp [componentsAux]
  | cons v vs ih =>
      intro visited hvs hvcl
      have hvs_tail : ∀ u ∈ vs, u < g.n := fun u hu => hvs u (List.mem_cons_of_mem _ hu)
      by_cases hv : v ∈ visited
      · rw [componentsAux_cons, if_pos hv]
        obtain ⟨S1, S2, S3, S4⟩ := ih visited hvs_tail hvcl
        refine ⟨S1, S2, S3, ?_⟩
        intro u hu
        rcases List.mem_cons.mp hu with rfl | hu2
        · exact Or.inl hv
        · exact S4 u hu2
      · have hvn : v < g.n := hvs v (List.mem_cons_self _ _)
        rw [componentsAux_cons, if_neg hv]
        obtain ⟨R1, R2, R3, R4, R5, R6, R7⟩ := dfsLoop_spec g hg (g.n + 1) [v] (v :: visited) []
          (by
            have := List.length_filter_le (fun x => x ∉ v :: visited) (List.range g.n)
            simp only [List.length_range] at this
            simp only [List.length_cons, List.length_nil]
            omega)
          (by simp) (by simpa using hvn) (by simp) (by simp) (by simp) (by simp)
        have hvcomp : v ∈ (dfsLoop g (g.n + 1) [v] (v :: visited) []).1 :=
          R7 v (List.mem_singleton.mpr rfl)
        have hfresh : ∀ x ∈ (dfsLoop g (g.n + 1) [v] (v :: visited) []).1, x ∉ visited := by
          intro x hx hxv
          rcases R4 x hx with hx2 | hx2 | hx2
          · simp at hx2
          · rw [List.mem_singleton.mp hx2] at hxv
            exact hv hxv
          · exact hx2 (List.mem_cons_of_mem _ hxv)
        have hcomp_sub : ∀ x ∈ (dfsLoop g (g.n + 1) [v] (v :: visited) []).1,
            x ∈ (dfsLoop g (g.n + 1) [v] (v :: visited) []).2 :=
          fun x hx => (R1 x).mpr (Or.inr hx)
        have hvis_sub : ∀ x ∈ visited, x ∈ (dfsLoop g (g.n + 1) [v] (v :: visited) []).2 :=
          fun x hx => (R1 x).mpr (Or.inl (List.mem_cons_of_mem _ hx))
        have hclosure : ∀ w ∈ (dfsLoop g (g.n + 1) [v] (v :: visited) []).1,
            ∀ z ∈ neighbors g w, z ∈ (dfsLoop g (g.n + 1) [v] (v :: visited) []).1 := by
          intro w hw z hz
          have hz2 := R2 w hw z hz
          rcases (R1 z).mp hz2 with hz3 | hz3
          · rcases List.mem_cons.mp hz3 with rfl | hz4
            · exact hvcomp
            · exfalso
              have hwz : w ∈ neighbors g z := neighbors_symm g w z hz
              have hwv : w ∈ visited := hvcl z hz4 w hwz
              exact hfresh w hw hwv
          · exact hz3
        have hvcl2 : ∀ u ∈ (dfsLoop g (g.n + 1) [v] (v :: visited) []).2,
            ∀ z ∈ neighbors g u, z ∈ (dfsLoop g (g.n + 1) [v] (v :: visited) []).2 := by
          intro u hu z hz
          rcases (R1 u).mp hu with hu2 | hu2
          · rcases List.mem_cons.mp hu2 with rfl | hu3
            · exact hcomp_sub z (hclosure u hvcomp z hz)
            · exact hvis_sub z (hvcl u hu3 z hz)
          · exact hcomp_sub z (hclosure u hu2 z hz)
        obtain ⟨S1, S2, S3, S4⟩ :=
          ih (dfsLoop g (g.n + 1) [v] (v :: visited) []).2 hvs_tail hvcl2
        refine ⟨?_, ?_, ?_, ?_⟩
        · intro c hc
          rcases List.mem_cons.mp hc with rfl | hc2
          · exact hclosure
          · exact S1 c hc2
        · rw [List.flatten_cons, List.nodup_append]
          refine ⟨R3, S2, ?_⟩
          intro x hx hxf
          exact (S3 x hxf).1 (hcomp_sub x hx)
        · intro x hx
          rw [List.flatten_cons, List.mem_append] at hx
          rcases hx with hx2 | hx2
          · exact ⟨hfresh x hx2, R5 x hx2⟩
          · refine ⟨?_, (S3 x hx2).2⟩
            intro hxv
            exact (S3 x hx2).1 (hvis_sub x hxv)
        · intro u hu
          rw [List.flatten_cons]
          rcases List.mem_cons.mp hu with rfl | hu2
          · exact Or.inr (List.mem_append.mpr (Or.inl hvcomp))
          · rcases S4 u hu2 with hu3 | hu3
            · rcases (R1 u).mp hu3 with hu4 | hu4
              · rcases List.mem_cons.mp hu4 with rfl | hu5
                · exact Or.inr (List.mem_append.mpr (Or.inl hvcomp))
                · exact Or.inl hu5
              · exact Or.inr (List.mem_append.mpr (Or.inl hu4))
            · exact Or.inr (List.mem_append.mpr (Or.inr hu3))

theorem flatten_nodup_part {α : Type} :
    ∀ (L : List (List α)), L.flatten.Nodup → ∀ c ∈ L, c.Nodup := by
  intro L
  induction L with
  | nil => intro _ c hc; simp at hc
  | cons a L ih =>
      intro hnd c hc
      rw [List.flatten_cons, List.nodup_append] at hnd
      rcases List.mem_cons.mp hc with rfl | hc2
      · exact hnd.1
      · exact ih hnd.2.1 c hc2

theorem countP_mem_one {α : Type} [DecidableEq α] :
    ∀ (L : List (List α)), L.flatten.Nodup → ∀ u ∈ L.flatten,
      L.countP (fun c => decide (u ∈ c)) = 1 := by
  intro L
  induction L with
  | nil => intro _ u hu; simp at hu
  | cons a L ih =>
      intro hnd u hu
      rw [List.flatten_cons, List.nodup_append] at hnd
      rw [List.flatten_cons, List.mem_append] at hu
      rw [List.countP_cons]
      rcases hu with hu2 | hu2
      · have hz : L.countP (fun c => decide (u ∈ c)) = 0 := by
          rw [List.countP_eq_zero]
          intro c hc hmem
          exact hnd.2.2 hu2 (List.mem_flatten.mpr ⟨c, hc, by simpa using hmem⟩)
        rw [hz]
        simp [hu2]
      · have hnotin : u ∉ a := fun ha => hnd.2.2 ha hu2
        rw [ih hnd.2.1 u hu2]
        simp [hnotin]

theorem componentsOf_spec (g : FGraph) (hg : ∀ e ∈ g.edges, e.1 < g.n ∧ e.2.1 < g.n) :
    (∀ c ∈ componentsOf g, ∀ w ∈ c, ∀ z ∈ neighbors g w, z ∈ c) ∧
    (componentsOf g).flatten.Nodup ∧
    (∀ x ∈ (componentsOf g).flatten, x < g.n) ∧
    (∀ u, u < g.n → u ∈ (componentsOf g).flatten) := by
  obtain ⟨S1, S2, S3, S4⟩ := componentsAux_spec g hg (List.range g.n) []
    (fun v hv => List.mem_range.mp hv) (by simp)
  refine ⟨S1, S2, fun x hx => (S3 x hx).2, ?_⟩
  intro u hu
  rcases S4 u (List.mem_range.mpr hu) with h | h
  · simp at h
  · exact h

/-- C10: for every graph whose edge endpoints are valid node indices, the
components produced by the depth-first traversal place every node in exactly
one component, every component is closed under adjacency, and consequently
the full-graph degree of a member equals its degree restricted to the
component. -/
theorem C10_components_partition_closed (g : FGraph) (hg : ∀ e ∈ g.edges, e.1 < g.n ∧ e.2.1 < g.n) :
    (∀ u, u < g.n → (componentsOf g).countP (fun c => decide (u ∈ c)) = 1) ∧
    (∀ c ∈ componentsOf g, ∀ w ∈ c, ∀ z ∈ neighbors g w, z ∈ c) ∧
    (∀ c ∈ componentsOf g, ∀ w ∈ c,
      ((neighbors g w).filter (fun z => decide (z ∈ c))).length = (neighbors g w).length) := by
  obtain ⟨S1, S2, S3, S4⟩ := componentsOf_spec g hg
  refine ⟨?_, S1, ?_⟩
  · intro u hu
    exact countP_mem_one (componentsOf g) S2 u (S4 u hu)
  · intro c hc w hw
    have : (neighbors g w).filter (fun z => decide (z ∈ c)) = neighbors g w := by
      rw [List.filter_eq_self]
      intro z hz
      simpa using S1 c hc w hw z hz
    rw [this]

theorem doubleton_inj (a b c d : ℕ) (hab : a < b) (hcd : c < d)
    (h : ({a, b} : Finset ℕ) = {c, d}) : a = c ∧ b = d := by
  have ha : a ∈ ({c, d} : Finset ℕ) := h ▸ Finset.mem_insert_self a {b}
  have hb : b ∈ ({c, d} : Finset ℕ) := h ▸ Finset.mem_insert.mpr
    (Or.inr (Finset.mem_singleton_self b))
  have hc : c ∈ ({a, b} : Finset ℕ) := h ▸ Finset.mem_insert_self c {d}
  have hd : d ∈ ({a, b} : Finset ℕ) := h ▸ Finset.mem_insert.mpr
    (Or.inr (Finset.mem_singleton_self d))
  simp only [Finset.mem_insert, Finset.mem_singleton] at ha hb hc hd
  omega

theorem graph_centrality_bounds (g : FGraph)
    (hg : ∀ e ∈ g.edges, e.1 < g.n ∧ e.2.1 < g.n)
    (hlt : ∀ e ∈ g.edges, e.1 < e.2.1)
    (hnd : (g.edges.map (fun e => (e.1, e.2.1))).Nodup)
    (comp : List ℕ) (hc : comp ∈ componentsOf g) :
    0 ≤ calculate_average_degree_centrality g comp ∧
    calculate_average_degree_centrality g comp ≤ 1 ∧
    (comp.length ≤ 1 → calculate_average_degree_centrality g comp = 0) := by
  obtain ⟨S1, S2, S3, S4⟩ := componentsOf_spec g hg
  have hcomp_nd : comp.Nodup := flatten_nodup_part (componentsOf g) S2 comp hc
  unfold calculate_average_degree_centrality
  by_cases hn : comp.length ≤ 1
  · rw [if_pos hn]
    exact ⟨le_refl 0, zero_le_one, fun _ => rfl⟩
  · rw [if_neg hn]
    push_neg at hn
    refine ⟨by positivity, ?_, fun h => absurd h (by omega)⟩
    have hdeg : ∀ w ∈ comp, (neighbors g w).length ≤ comp.length - 1 := by
      intro w hw
      have hnbnd : (neighbors g w).Nodup :=
        neighbors_nodup_aux w g.edges hnd hlt
      have hsub : (neighbors g w).toFinset ⊆ comp.toFinset.erase w := by
        intro z hz
        rw [List.mem_toFinset] at hz
        rw [Finset.mem_erase]
        refine ⟨neighbors_ne g (fun e he => Nat.ne_of_lt (hlt e he)) w z hz, ?_⟩
        rw [List.mem_toFinset]
        exact S1 comp hc w hw z hz
      have hcard := Finset.card_le_card hsub
      rw [List.toFinset_card_of_nodup hnbnd] at hcard
      rw [Finset.card_erase_of_mem (List.mem_toFinset.mpr hw),
        List.toFinset_card_of_nodup hcomp_nd] at hcard
      exact hcard
    have htot : (comp.map (fun v => (neighbors g v).length)).sum ≤
        comp.length * (comp.length - 1) := by
      have := List.sum_le_card_nsmul (comp.map (fun v => (neighbors g v).length))
        (comp.length - 1) (by
          intro x hx
          obtain ⟨w, hw, rfl⟩ := List.mem_map.mp hx
          exact hdeg w hw)
      simpa [smul_eq_mul] using this
    rw [div_div]
    rw [div_le_one (by
      have h2 : (2 : ℝ) ≤ (comp.length : ℝ) := by exact_mod_cast hn
      have : (1 : ℝ) ≤ ((comp.length - 1 : ℕ) : ℝ) := by
        have : 1 ≤ comp.length - 1 := by omega
        exact_mod_cast this
      nlinarith)]
    calc ((comp.map (fun v => (neighbors g v).length)).sum : ℝ)
        ≤ ((comp.length * (comp.length - 1) : ℕ) : ℝ) := by exact_mod_cast htot
      _ = (comp.length : ℝ) * ((comp.length - 1 : ℕ) : ℝ) := by push_cast; ring

theorem graph_density_bounds (g : FGraph)
    (hg : ∀ e ∈ g.edges, e.1 < g.n ∧ e.2.1 < g.n)
    (hlt : ∀ e ∈ g.edges, e.1 < e.2.1)
    (comp : List ℕ) (hc : comp ∈ componentsOf g) :
    0 ≤ calculate_component_density g comp ∧
    calculate_component_density g comp ≤ 1 ∧
    (comp.length ≤ 1 → calculate_component_density g comp = 0) := by
  obtain ⟨S1, S2, S3, S4⟩ := componentsOf_spec g hg
  have hcomp_nd : comp.Nodup := flatten_nodup_part (componentsOf g) S2 comp hc
  unfold calculate_component_density
  by_cases hn : comp.length ≤ 1
  · rw [if_pos hn]
    exact ⟨le_refl 0, zero_le_one, fun _ => rfl⟩
  · rw [if_neg hn]
    push_neg at hn
    have hmax : 1 ≤ comp.length * (comp.length - 1) / 2 := by
      rw [Nat.le_div_iff_mul_le (by omega)]
      have h2 : 1 ≤ comp.length - 1 := by omega
      calc 1 * 2 = 2 * 1 := by ring
        _ ≤ comp.length * (comp.length - 1) := Nat.mul_le_mul hn h2
    rw [if_neg (by omega)]
    refine ⟨by positivity, ?_, fun h => absurd h (by omega)⟩
    set P := (comp.flatMap fun node =>
      (neighbors g node).filterMap fun nb =>
        if nb ∈ comp then some (min node nb, max node nb) else none).toFinset with hP
    have hPmem : ∀ p ∈ P, p.1 < p.2 ∧ p.1 ∈ comp ∧ p.2 ∈ comp := by
      intro p hp
      rw [hP, List.mem_toFinset, List.mem_flatMap] at hp
      obtain ⟨node, hnode, hpn⟩ := hp
      obtain ⟨nb, hnb, hif⟩ := List.mem_filterMap.mp hpn
      by_cases hin : nb ∈ comp
      · rw [if_pos hin] at hif
        have hne : nb ≠ node := neighbors_ne g (fun e he => Nat.ne_of_lt (hlt e he)) node nb hnb
        have hpe : p = (min node nb, max node nb) := (Option.some_inj.mp hif).symm
        subst hpe
        refine ⟨?_, ?_, ?_⟩
        · simp only []
          omega
        · rcases Nat.le_total node nb with h | h
          · simpa [min_eq_left h] using hnode
          · simpa [min_eq_right h] using hin
        · rcases Nat.le_total node nb with h | h
          · simpa [max_eq_right h] using hin
          · simpa [max_eq_left h] using hnode
      · rw [if_neg hin] at hif
        simp at hif
    have hcard : P.card ≤ comp.length * (comp.length - 1) / 2 := by
      have hinj : Set.InjOn (fun p : ℕ × ℕ => ({p.1, p.2} : Finset ℕ)) P := by
        intro p hp q hq hpq
        have hp2 := hPmem p hp
        have hq2 := hPmem q hq
        obtain ⟨h1, h2⟩ := doubleton_inj p.1 p.2 q.1 q.2 hp2.1 hq2.1 hpq
        exact Prod.ext h1 h2
      have hmaps : ∀ p ∈ P, ({p.1, p.2} : Finset ℕ) ∈ comp.toFinset.powersetCard 2 := by
        intro p hp
        obtain ⟨h1, h2, h3⟩ := hPmem p hp
        rw [Finset.mem_powersetCard]
        constructor
        · intro x hx
          rcases Finset.mem_insert.mp hx with rfl | hx2
          · exact List.mem_toFinset.mpr h2
          · rw [Finset.mem_singleton.mp hx2]
            exact List.mem_toFinset.mpr h3
        · exact Finset.card_pair (by omega)
      calc P.card ≤ (comp.toFinset.powersetCard 2).card :=
            Finset.card_le_card_of_injOn _ hmaps hinj
        _ = comp.toFinset.card.choose 2 := Finset.card_powersetCard 2 _
        _ = comp.length.choose 2 := by rw [List.toFinset_card_of_nodup hcomp_nd]
        _ = comp.length * (comp.length - 1) / 2 := Nat.choose_two_right _
    have hpos : (0 : ℝ) < ((comp.length * (comp.length - 1) / 2 : ℕ) : ℝ) := by
      exact_mod_cast (by omega : 0 < comp.length * (comp.length - 1) / 2)
    rw [div_le_one hpos]
    exact_mod_cast hcard

theorem plainTx_fv (tid ty : String) (pf age : ℤ) :
    (plainTx tid ty pf age).to_feature_vector =
    [0, 0, 0, 0, (pf : ℝ), (age : ℝ), 0, typeEncode ty, 0] := by
  simp [Transaction.to_feature_vector, plainTx, payEncode, payIndex, fmod_zero_24]

theorem sqrt_25 : Real.sqrt 25 = 5 := by
  rw [show (25 : ℝ) = 5 ^ 2 by norm_num, Real.sqrt_sq (by norm_num : (0:ℝ) ≤ 5)]

theorem cos_34_50 : cosine_similarity ([0, 0, 0, 0, 3, 4, 0, 0, 0] : List ℝ)
    ([0, 0, 0, 0, 5, 0, 0, 0, 0] : List ℝ) = 3 / 5 := by
  unfold cosine_similarity
  norm_num [sqrt_25]

theorem cos_34_43 : cosine_similarity ([0, 0, 0, 0, 3, 4, 0, 0, 0] : List ℝ)
    ([0, 0, 0, 0, 4, 3, 0, 0, 0] : List ℝ) = 24 / 25 := by
  unfold cosine_similarity
  norm_num [sqrt_25]

theorem cos_50_43 : cosine_similarity ([0, 0, 0, 0, 5, 0, 0, 0, 0] : List ℝ)
    ([0, 0, 0, 0, 4, 3, 0, 0, 0] : List ℝ) = 4 / 5 := by
  unfold cosine_similarity
  norm_num [sqrt_25]

theorem featAt_txsDup_0 : featAt txsDup 0 = [0, 0, 0, 0, 3, 4, 0, 0, 0] := by
  show (plainTx "A" "ATM Withdrawal" 3 4).to_feature_vector = _
  rw [plainTx_fv]
  norm_num [typeEncode, typeIndex]

theorem featAt_txsDup_1 : featAt txsDup 1 = [0, 0, 0, 0, 5, 0, 0, 0, 0] := by
  show (plainTx "A" "ATM Withdrawal" 5 0).to_feature_vector = _
  rw [plainTx_fv]
  norm_num [typeEncode, typeIndex]

theorem featAt_txsDup_2 : featAt txsDup 2 = [0, 0, 0, 0, 4, 3, 0, 0, 0] := by
  show (plainTx "B" "ATM Withdrawal" 4 3).to_feature_vector = _
  rw [plainTx_fv]
  norm_num [typeEncode, typeIndex]

theorem txsDup_graph : build_transaction_graph txsDup =
    ⟨3, [(1, 2, (24 / 25 : ℝ)), (1, 2, (4 / 5 : ℝ))]⟩ := by
  unfold build_transaction_graph
  have hpairs : pairsList txsDup.length = [(0, 1), (0, 2), (1, 2)] := rfl
  have hl0 : lastOcc txsDup (tidAt txsDup 0) = 1 := by decide
  have hl1 : lastOcc txsDup (tidAt txsDup 1) = 1 := by decide
  have hl2 : lastOcc txsDup (tidAt txsDup 2) = 2 := by decide
  congr 1
  rw [hpairs]
  rw [List.filterMap_cons, List.filterMap_cons, List.filterMap_cons, List.filterMap_nil]
  simp only [featAt_txsDup_0, featAt_txsDup_1, featAt_txsDup_2, cos_34_50, cos_34_43, cos_50_43,
    hl0, hl1, hl2]
  norm_num

theorem txsDup_components : componentsOf (build_transaction_graph txsDup) = [[0], [1, 2]] := by
  rw [txsDup_graph]
  rfl

theorem txsDup_centrality :
    calculate_average_degree_centrality (build_transaction_graph txsDup) [1, 2] = 2 := by
  rw [txsDup_graph]
  unfold calculate_average_degree_centrality
  have hn1 : neighbors ⟨3, [(1, 2, (24 / 25 : ℝ)), (1, 2, (4 / 5 : ℝ))]⟩ 1 = [2, 2] := rfl
  have hn2 : neighbors ⟨3, [(1, 2, (24 / 25 : ℝ)), (1, 2, (4 / 5 : ℝ))]⟩ 2 = [1, 1] := rfl
  simp only [List.length_cons, List.length_nil, List.map_cons, List.map_nil, hn1, hn2,
    List.sum_cons, List.sum_nil]
  norm_num

/-- C5 counterexample: with the three records of `txsDup` — the first two
sharing the transaction id "A" — the `node_indices` HashMap maps both to the
last node with that id, so the graph contains the edge pair (1,2) twice
(duplicate edges), and although records 0 and 2 have cosine similarity
24/25 > 0.7 no edge joins nodes 0 and 2. -/
theorem C5_counterexample :
    ¬ ((build_transaction_graph txsDup).edges.map (fun e => (e.1, e.2.1))).Nodup ∧
    0.7 < cosine_similarity (featAt txsDup 0) (featAt txsDup 2) ∧
    (∀ w, (0, 2, w) ∉ (build_transaction_graph txsDup).edges) := by
  refine ⟨?_, ?_, ?_⟩
  · rw [txsDup_graph]
    simp
  · rw [featAt_txsDup_0, featAt_txsDup_2, cos_34_43]
    norm_num
  · intro w hw
    rw [txsDup_graph] at hw
    rcases List.mem_cons.mp hw with h | h
    · exact absurd (congrArg Prod.fst h) (by norm_num)
    · rcases List.mem_cons.mp h with h2 | h2
      · exact absurd (congrArg Prod.fst h2) (by norm_num)
      · simp at h2

/-- C8 counterexample: in the graph built from `txsDup` (two records sharing
the id "A"), the DFS component `[1, 2]` carries two parallel edges, so the
average degree centrality evaluates to `2`, outside the claimed `[0, 1]`. -/
theorem C8_counterexample :
    [1, 2] ∈ componentsOf (build_transaction_graph txsDup) ∧
    calculate_average_degree_centrality (build_transaction_graph txsDup) [1, 2] = 2 ∧
    ¬ (calculate_average_degree_centrality (build_transaction_graph txsDup) [1, 2] ≤ 1) := by
  refine ⟨?_, txsDup_centrality, ?_⟩
  · rw [txsDup_components]
    simp
  · rw [txsDup_centrality]
    norm_num

/-- C5 (amended): when the transaction ids are pairwise distinct, the graph
built by `build_transaction_graph` has one node per record, an edge between
`i < j` exactly when the cosine similarity of their feature vectors exceeds
0.7, that similarity stored as the weight, no self-loops (every edge has
`e.1 < e.2.1`), and no duplicate edges. -/
theorem C5_graph_structure_distinct_ids (txs : List Transaction)
    (h : (txs.map (fun t => t.transaction_id)).Nodup) :
    (build_transaction_graph txs).n = txs.length ∧
    (∀ i j : ℕ, i < j → j < txs.length →
      ((∃ w, (i, j, w) ∈ (build_transaction_graph txs).edges) ↔
        0.7 < cosine_similarity (featAt txs i) (featAt txs j))) ∧
    (∀ e ∈ (build_transaction_graph txs).edges,
      e.1 < e.2.1 ∧ e.2.1 < txs.length ∧
      e.2.2 = cosine_similarity (featAt txs e.1) (featAt txs e.2.1) ∧ 0.7 < e.2.2) ∧
    ((build_transaction_graph txs).edges.map (fun e => (e.1, e.2.1))).Nodup := by
  exact ⟨rfl, fun i j hij hjn => edge_mem_iff txs h i j hij hjn, edges_mem_spec txs h,
    edges_pairs_nodup txs h⟩

/-- C8 (amended): when the transaction ids are pairwise distinct, every
component produced by the fraud-pattern traversal has density and average
degree centrality in `[0, 1]`, and both are exactly 0 for components of size
at most 1. -/
theorem C8_metrics_bounds_distinct_ids (txs : List Transaction)
    (h : (txs.map (fun t => t.transaction_id)).Nodup) :
    ∀ comp ∈ componentsOf (build_transaction_graph txs),
      0 ≤ calculate_component_density (build_transaction_graph txs) comp ∧
      calculate_component_density (build_transaction_graph txs) comp ≤ 1 ∧
      0 ≤ calculate_average_degree_centrality (build_transaction_graph txs) comp ∧
      calculate_average_degree_centrality (build_transaction_graph txs) comp ≤ 1 ∧
      (comp.length ≤ 1 →
        calculate_component_density (build_transaction_graph txs) comp = 0 ∧
        calculate_average_degree_centrality (build_transaction_graph txs) comp = 0) := by
  intro comp hcomp
  have hspec := edges_mem_spec txs h
  have hg : ∀ e ∈ (build_transaction_graph txs).edges,
      e.1 < (build_transaction_graph txs).n ∧ e.2.1 < (build_transaction_graph txs).n := by
    intro e he
    obtain ⟨h1, h2, _, _⟩ := hspec e he
    have hn : (build_transaction_graph txs).n = txs.length := rfl
    rw [hn]
    exact ⟨by omega, h2⟩
  have hlt : ∀ e ∈ (build_transaction_graph txs).edges, e.1 < e.2.1 :=
    fun e he => (hspec e he).1
  obtain ⟨d1, d2, d3⟩ := graph_density_bounds (build_transaction_graph txs) hg hlt comp hcomp
  obtain ⟨c1, c2, c3⟩ := graph_centrality_bounds (build_transaction_graph txs) hg hlt
    (edges_pairs_nodup txs h) comp hcomp
  exact ⟨d1, d2, c1, c2, fun hn => ⟨d3 hn, c3 hn⟩⟩

/-- C7: for every non-empty input with `1 ≤ k ≤ N` and any total cluster
assignment into `[0, k)` (the output guarantee of the k-means fit, spec
section 4.3), the returned analyses cover every transaction exactly once —
the sizes sum to `N`, every returned cluster is non-empty, and each satisfies
`fraud_count ≤ size` and `unique_users ≤ size`. -/
theorem C7_cluster_partition_invariants (pred : ℕ → ℕ) (txs : List Transaction) (k : ℕ)
    (h1 : txs ≠ []) (h2 : 1 ≤ k) (h3 : k ≤ txs.length)
    (hpred : ∀ i < txs.length, pred i < k) :
    analyze_clusters pred txs k = .ok (clusterAnalyses pred txs k) ∧
    ((clusterAnalyses pred txs k).map (fun c => c.size)).sum = txs.length ∧
    (∀ c ∈ clusterAnalyses pred txs k,
      0 < c.size ∧ c.fraud_count ≤ c.size ∧ c.unique_users ≤ c.size) := by
  refine ⟨?_, clusterAnalyses_sizes pred txs k hpred, clusterAnalyses_mem_spec pred txs k⟩
  unfold analyze_clusters
  rw [if_neg (by simp [List.isEmpty_iff, h1]), if_neg (by omega)]

/-- C6 (amended): for every non-empty cluster and any HashMap iteration
order (any permutation of the canonical count entries), the selected
most-common transaction type and payment method are categories occurring in
the cluster whose occurrence count attains the maximum; the tie-break among
maximal categories is the hash iteration order (last maximal entry wins), not
the fixed enumeration order. -/
theorem C6_mode_attains_max_count (cl : List Transaction) (e1 : List (String × ℕ))
    (e2 : List (Option String × ℕ)) (h1 : cl ≠ [])
    (hp1 : e1.Perm (canonicalEntries (cl.map (fun t => t.transaction_type))))
    (hp2 : e2.Perm (canonicalEntries (cl.map (fun t => t.payment_method)))) :
    (selectedMode "" e1 ∈ cl.map (fun t => t.transaction_type) ∧
      countOf (cl.map (fun t => t.transaction_type)) (selectedMode "" e1) =
        maxCount (cl.map (fun t => t.transaction_type))) ∧
    (selectedMode none e2 ∈ cl.map (fun t => t.payment_method) ∧
      countOf (cl.map (fun t => t.payment_method)) (selectedMode none e2) =
        maxCount (cl.map (fun t => t.payment_method))) := by
  have hm1 : cl.map (fun t => t.transaction_type) ≠ [] := by simpa using h1
  have hm2 : cl.map (fun t => t.payment_method) ≠ [] := by simpa using h1
  exact ⟨selectedMode_spec "" _ e1 hm1 hp1, selectedMode_spec none _ e2 hm2 hp2⟩

/-- C9 (amended): the pipeline is a pure function of the input and the
HashMap iteration orders; whenever the maximal category count is attained by
a unique category, the most-common selection is independent of the iteration
order, and the repeat-offender list is determined up to permutation. -/
theorem C9_deterministic_up_to_hash_order (key : List String) (e1 e2 : List (String × ℕ))
    (txs : List Transaction) (u1 u2 : List (ℤ × ℕ))
    (h1 : e1.Perm (canonicalEntries key)) (h2 : e2.Perm (canonicalEntries key))
    (huniq : ∀ a ∈ key.dedup, ∀ b ∈ key.dedup,
      countOf key a = maxCount key → countOf key b = maxCount key → a = b)
    (hu1 : u1.Perm (canonicalUserFraudEntries txs))
    (hu2 : u2.Perm (canonicalUserFraudEntries txs)) :
    selectedMode "" e1 = selectedMode "" e2 ∧
    (repeat_offenders u1).Perm (repeat_offenders u2) :=
  ⟨selectedMode_unique_inv "" key e1 e2 h1 h2 huniq, (hu1.trans hu2.symm).filter _⟩

/-- Witness for C3 at the concrete input `[wTx]`, `k = 0`. -/
theorem C3_witness :
    ([wTx] : List Transaction) ≠ [] ∧ ((0 : ℕ) = 0 ∨ [wTx].length < 0) ∧
    analyze_clusters (fun _ => 0) [wTx] 0 = .error .invalidConfiguration :=
  ⟨by simp, Or.inl rfl, C3_invalid_configuration_nonempty (fun _ => 0) [wTx] 0 (by simp) (Or.inl rfl)⟩

/-- Witness for C5 at the concrete single-record input `[wTx]`. -/
theorem C5_witness :
    (([wTx] : List Transaction).map (fun t => t.transaction_id)).Nodup ∧
    (build_transaction_graph [wTx]).n = [wTx].length :=
  ⟨by simp, (C5_graph_structure_distinct_ids [wTx] (by simp)).1⟩

/-- Witness for C7 at a concrete two-record input with `k = 1`. -/
theorem C7_witness :
    (([wTx, plainTx "W2" "Transfer" 0 0] : List Transaction) ≠ [] ∧ (1 : ℕ) ≤ 1 ∧
      1 ≤ [wTx, plainTx "W2" "Transfer" 0 0].length ∧
      (∀ i < [wTx, plainTx "W2" "Transfer" 0 0].length, (fun _ => 0) i < 1)) ∧
    ((clusterAnalyses (fun _ => 0) [wTx, plainTx "W2" "Transfer" 0 0] 1).map
      (fun c => c.size)).sum = 2 :=
  ⟨⟨by simp, le_refl 1, by simp, fun i _ => Nat.zero_lt_one⟩,
    (C7_cluster_partition_invariants (fun _ => 0) [wTx, plainTx "W2" "Transfer" 0 0] 1 (by simp) (le_refl 1)
      (by simp) (fun i _ => Nat.zero_lt_one)).2.1⟩

/-- Witness for C8 at the concrete single-record input `[wTx]`. -/
theorem C8_witness :
    (([wTx] : List Transaction).map (fun t => t.transaction_id)).Nodup ∧
    (∀ comp ∈ componentsOf (build_transaction_graph [wTx]),
      calculate_component_density (build_transaction_graph [wTx]) comp ≤ 1) :=
  ⟨by simp, fun comp hc => ((C8_metrics_bounds_distinct_ids [wTx] (by simp)) comp hc).2.1⟩

/-- Witness for C6 at the concrete one-record cluster `[wTx]`. -/
theorem C6_witness :
    (([wTx] : List Transaction) ≠ [] ∧
      (canonicalEntries ([wTx].map (fun t => t.transaction_type))).Perm
        (canonicalEntries ([wTx].map (fun t => t.transaction_type))) ∧
      (canonicalEntries ([wTx].map (fun t => t.payment_method))).Perm
        (canonicalEntries ([wTx].map (fun t => t.payment_method)))) ∧
    selectedMode "" (canonicalEntries ([wTx].map (fun t => t.transaction_type))) ∈
      [wTx].map (fun t => t.transaction_type) :=
  ⟨⟨by simp, List.Perm.refl _, List.Perm.refl _⟩,
    ((C6_mode_attains_max_count [wTx] _ _ (by simp) (List.Perm.refl _) (List.Perm.refl _)).1).1⟩

/-- Witness for C9 at the concrete key list `["Transfer"]`. -/
theorem C9_witness :
    (((canonicalEntries ["Transfer"]).Perm (canonicalEntries ["Transfer"])) ∧
      (∀ a ∈ (["Transfer"] : List String).dedup, ∀ b ∈ (["Transfer"] : List String).dedup,
        countOf ["Transfer"] a = maxCount ["Transfer"] →
        countOf ["Transfer"] b = maxCount ["Transfer"] → a = b) ∧
      (canonicalUserFraudEntries []).Perm (canonicalUserFraudEntries [])) ∧
    selectedMode "" (canonicalEntries ["Transfer"]) =
      selectedMode "" (canonicalEntries ["Transfer"]) :=
  ⟨⟨List.Perm.refl _, by decide, List.Perm.refl _⟩,
    (C9_deterministic_up_to_hash_order ["Transfer"] _ _ [] _ _ (List.Perm.refl _) (List.Perm.refl _) (by decide)
      (List.Perm.refl _) (List.Perm.refl _)).1⟩

/-- Witness for C10 at the concrete two-node one-edge graph. -/
theorem C10_witness :
    (∀ e ∈ (FGraph.mk 2 [(0, 1, (1 : ℝ))]).edges,
      e.1 < (FGraph.mk 2 [(0, 1, (1 : ℝ))]).n ∧ e.2.1 < (FGraph.mk 2 [(0, 1, (1 : ℝ))]).n) ∧
    (∀ u, u < (FGraph.mk 2 [(0, 1, (1 : ℝ))]).n →
      (componentsOf (FGraph.mk 2 [(0, 1, (1 : ℝ))])).countP (fun c => decide (u ∈ c)) = 1) :=
  ⟨by simp, (C10_components_partition_closed (FGraph.mk 2 [(0, 1, (1 : ℝ))]) (by simp)).1⟩
